import Mathlib

/-!
Verification of the FinancialQA hybrid-retrieval and metrics engine.

This file shallowly embeds the core of the repository:
  app/rag/retrieval.py        (EnhancedRetriever: query enhancement, entity
                               extraction, grouping/deduplication)
  app/utils/metrics.py        (MetricsTracker: retrieval metrics, answer metrics)
  app/utils/metrics_storage.py (MetricsStorage: change-aware bounded history)

Python floats are modelled as rationals except where a real logarithm is
required (NDCG uses log2, so NDCG values live in the reals).  The regular
expressions of the source are embedded as explicit character scanners that
follow Python re.findall semantics (leftmost, non-overlapping, greedy,
ordered alternation, ASCII word characters) for the specific patterns the
source uses.
-/

namespace FinQA

/-! ### Character-level utilities (Python str semantics, ASCII) -/

/-- Python whitespace characters, as used by str.split, str.strip and the
regex class backslash-s. -/
def isPySpace (c : Char) : Bool :=
  c = ' ' || c = '\t' || c = '\n' || c = '\r' || c = '\x0b' || c = '\x0c'

/-- Regex word character (ASCII): letters, digits or underscore. -/
def isWordChar (c : Char) : Bool :=
  c.isAlpha || c.isDigit || c = '_'

/-- Python str.split() with no argument: maximal runs of non-whitespace. -/
def pyWordsF : ℕ → List Char → List (List Char)
  | 0, _ => []
  | _, [] => []
  | fuel + 1, c :: cs =>
    if isPySpace c then pyWordsF fuel cs
    else (c :: cs.takeWhile (fun x => !isPySpace x)) ::
      pyWordsF fuel (cs.dropWhile (fun x => !isPySpace x))

/-- Joining a list of words with single spaces. -/
def joinSpace (ws : List (List Char)) : List Char :=
  List.intercalate [' '] ws

/-- Python str.strip(): drop leading and trailing whitespace. -/
def pyStrip (cs : List Char) : List Char :=
  ((cs.dropWhile isPySpace).reverse.dropWhile isPySpace).reverse

/-! ### Scanners for the regular expressions of the source

Each scanner is re.findall for one concrete pattern.  At every position the
pattern is attempted; on success the (non-empty) match is recorded and
scanning resumes after it, otherwise scanning advances one character.  The
fuel argument is always instantiated with the input length, which suffices
because every step consumes at least one character. -/

/-- One step of a literal match: if the first list is a prefix of the
second, return the remainder. -/
def litMatch : List Char → List Char → Option (List Char)
  | [], rest => some rest
  | _, [] => none
  | a :: as, c :: cs => if a = c then litMatch as cs else none

/-- A word boundary after a match: end of input or a non-word character. -/
def boundaryAfter : List Char → Bool
  | [] => true
  | c :: _ => !isWordChar c

/-- Try the alternatives of an alternation in pattern order; an alternative
succeeds when it matches literally and is followed by a word boundary. -/
def tryAlts (alts : List (List Char)) (cs : List Char) : Option (List Char × List Char) :=
  match alts with
  | [] => none
  | a :: rest =>
    match litMatch a cs with
    | some r => if boundaryAfter r then some (a, r) else tryAlts rest cs
    | none => tryAlts rest cs

/-- findall for a word-bounded alternation of literal vocabulary words
(all alternatives start and end with a letter).  The Bool argument records
whether the previous character was a word character (initially false), which
decides the leading word boundary. -/
def termScanF (alts : List (List Char)) : ℕ → Bool → List Char → List String
  | 0, _, _ => []
  | _, _, [] => []
  | fuel + 1, prevW, c :: cs =>
    if prevW then termScanF alts fuel (isWordChar c) cs
    else
      match tryAlts alts (c :: cs) with
      | some (a, r) => String.mk a :: termScanF alts fuel true r
      | none => termScanF alts fuel (isWordChar c) cs

/-- The greedy comma groups (?:,d{3})* : repeatedly consume a comma followed
by exactly three digits.  Returns the consumed characters and the rest. -/
def commaGroups : ℕ → List Char → List Char × List Char
  | 0, cs => ([], cs)
  | fuel + 1, cs =>
    match cs with
    | ',' :: d1 :: d2 :: d3 :: r =>
      if d1.isDigit && d2.isDigit && d3.isDigit then
        let (more, rest) := commaGroups fuel r
        (',' :: d1 :: d2 :: d3 :: more, rest)
      else ([], cs)
    | _ => ([], cs)

/-- The optional greedy fractional part (?:.d+)? . -/
def fracPart : List Char → List Char × List Char
  | '.' :: d :: ds =>
    if d.isDigit then ('.' :: d :: ds.takeWhile Char.isDigit, ds.dropWhile Char.isDigit)
    else ([], '.' :: d :: ds)
  | cs => ([], cs)

/-- findall for d+(?:.d+)?%? (the lightweight numeric pattern of
_enhance_query). -/
def numScanF : ℕ → List Char → List String
  | 0, _ => []
  | _, [] => []
  | fuel + 1, c :: cs =>
    if c.isDigit then
      let ip := c :: cs.takeWhile Char.isDigit
      let r0 := cs.dropWhile Char.isDigit
      let (fp, r1) := fracPart r0
      match r1 with
      | '%' :: r2 => String.mk (ip ++ fp ++ ['%']) :: numScanF fuel r2
      | _ => String.mk (ip ++ fp) :: numScanF fuel r1
    else numScanF fuel cs

/-- findall for the currency pattern dollar, optional spaces, digits with
optional thousands separators and decimal part. -/
def curScanF : ℕ → List Char → List String
  | 0, _ => []
  | _, [] => []
  | fuel + 1, c :: cs =>
    if c = '$' then
      let sp := cs.takeWhile isPySpace
      let r0 := cs.dropWhile isPySpace
      match r0 with
      | d :: r1 =>
        if d.isDigit then
          let ip := d :: r1.takeWhile Char.isDigit
          let r2 := r1.dropWhile Char.isDigit
          let (cg, r3) := commaGroups r2.length r2
          let (fp, r4) := fracPart r3
          String.mk ('$' :: (sp ++ ip ++ cg ++ fp)) :: curScanF fuel r4
        else curScanF fuel cs
      | [] => curScanF fuel cs
    else curScanF fuel cs

/-- findall for -?d+(?:.d+)?% (percentages).  When the mandatory percent
sign is absent the whole attempt fails (backtracking into the greedy digit
runs cannot produce the percent sign, so this is faithful). -/
def pctScanF : ℕ → List Char → List String
  | 0, _ => []
  | _, [] => []
  | fuel + 1, c :: cs =>
    let attempt : Option (List Char × List Char) :=
      if c = '-' then
        match cs with
        | d :: r1 =>
          if d.isDigit then
            let ip := d :: r1.takeWhile Char.isDigit
            let r2 := r1.dropWhile Char.isDigit
            let (fp, r3) := fracPart r2
            match r3 with
            | '%' :: r4 => some ('-' :: (ip ++ fp ++ ['%']), r4)
            | _ => none
          else none
        | [] => none
      else if c.isDigit then
        let ip := c :: cs.takeWhile Char.isDigit
        let r2 := cs.dropWhile Char.isDigit
        let (fp, r3) := fracPart r2
        match r3 with
        | '%' :: r4 => some (ip ++ fp ++ ['%'], r4)
        | _ => none
      else none
    match attempt with
    | some (tok, rest) => String.mk tok :: pctScanF fuel rest
    | none => pctScanF fuel cs

/-- findall for the year pattern: word boundary, (19|20), two digits, word
boundary.  Crucially, Python re.findall returns the text of the single
capture group, i.e. the two characters 19 or 20, not the whole match; the
scanner reproduces that. -/
def yearScanF : ℕ → Bool → List Char → List String
  | 0, _, _ => []
  | _, _, [] => []
  | fuel + 1, prevW, c :: cs =>
    let found : Option (String × List Char) :=
      if prevW then none
      else
        match c :: cs with
        | a :: b :: d1 :: d2 :: r =>
          if ((a = '1' && b = '9') || (a = '2' && b = '0')) && d1.isDigit && d2.isDigit
              && boundaryAfter r then
            some (String.mk [a, b], r)
          else none
        | _ => none
    match found with
    | some (g, r) => g :: yearScanF fuel true r
    | none => yearScanF fuel (isWordChar c) cs

/-- findall for -?d+(?:,d{3})*(?:.d+)? (plain numbers with optional sign,
thousands separators and decimal part). -/
def numberScanF : ℕ → List Char → List String
  | 0, _ => []
  | _, [] => []
  | fuel + 1, c :: cs =>
    let attempt : Option (List Char × List Char) :=
      if c = '-' then
        match cs with
        | d :: r1 =>
          if d.isDigit then
            let ip := d :: r1.takeWhile Char.isDigit
            let r2 := r1.dropWhile Char.isDigit
            let (cg, r3) := commaGroups r2.length r2
            let (fp, r4) := fracPart r3
            some ('-' :: (ip ++ cg ++ fp), r4)
          else none
        | [] => none
      else if c.isDigit then
        let ip := c :: cs.takeWhile Char.isDigit
        let r2 := cs.dropWhile Char.isDigit
        let (cg, r3) := commaGroups r2.length r2
        let (fp, r4) := fracPart r3
        some (ip ++ cg ++ fp, r4)
      else none
    match attempt with
    | some (tok, rest) => String.mk tok :: numberScanF fuel rest
    | none => numberScanF fuel cs

/-- findall for the tokenization pattern of _tokenize_text: maximal
word-character runs, or one of the five basic punctuation marks. -/
def tokScanF : ℕ → List Char → List (List Char)
  | 0, _ => []
  | _, [] => []
  | fuel + 1, c :: cs =>
    if isWordChar c then
      (c :: cs.takeWhile isWordChar) :: tokScanF fuel (cs.dropWhile isWordChar)
    else if c = '.' || c = ',' || c = '!' || c = '?' || c = ';' then
      [c] :: tokScanF fuel cs
    else tokScanF fuel cs

/-! ### app/rag/retrieval.py -/

/-- One chat-history message (the source uses dicts with role and content;
msg.get of a missing content key is modelled away by the typed field). -/
structure ChatMessage where
  role : String
  content : String
deriving DecidableEq, Repr

/-- The fixed financial-term vocabulary of _enhance_query, in pattern
order. -/
def enhanceVocab : List String :=
  ["increase", "decrease", "growth", "profit", "revenue", "cost", "margin", "ratio"]

/-- Adding elements to a deduplicating collection.  The source uses a
Python set, whose iteration order is unspecified; the embedding fixes
first-seen insertion order (the spec recommends exactly this refinement). -/
def insertNew (acc : List String) (xs : List String) : List String :=
  xs.foldl (fun a x => if x ∈ a then a else a ++ [x]) acc

/-- The key_terms collection of _enhance_query: from each of the last two
history messages, lowercased, collect numeric tokens and vocabulary
terms. -/
def keyTerms (chat_history : List ChatMessage) : List String :=
  (chat_history.drop (chat_history.length - 2)).foldl
    (fun acc msg =>
      let content := msg.content.data.map Char.toLower
      let numbers := numScanF content.length content
      let terms := termScanF (enhanceVocab.map (fun s => s.data)) content.length false content
      insertNew (insertNew acc numbers) terms)
    []

/-- EnhancedRetriever._enhance_query. -/
def enhance_query (query : String) (chat_history : Option (List ChatMessage)) : String :=
  match chat_history with
  | none => query
  | some h =>
    if h = [] then query
    else
      let key_terms := keyTerms h
      if key_terms = [] then query
      else query ++ " " ++ String.intercalate " " key_terms

/-- The entity record built by _extract_financial_entities. -/
structure FinancialEntities where
  numbers : List String
  currency : List String
  percentages : List String
  financial_terms : List String
  years : List String
deriving DecidableEq, Repr

/-- The fixed financial-term vocabulary of _extract_financial_entities, in
pattern order. -/
def financialVocab : List String :=
  ["increase", "decrease", "change", "growth", "decline", "net sales", "revenue",
   "sales", "margin", "profit", "loss", "total", "cost", "expense", "income", "earnings"]

/-- c.replace of dollar and comma with nothing, then strip. -/
def stripCur (s : String) : String :=
  String.mk (pyStrip (s.data.filter (fun c => !(c = '$' || c = ','))))

/-- p.replace of percent with nothing. -/
def stripPct (s : String) : String :=
  String.mk (s.data.filter (fun c => !(c = '%')))

/-- n.replace of comma with nothing. -/
def stripComma (s : String) : String :=
  String.mk (s.data.filter (fun c => !(c = ',')))

/-- EnhancedRetriever._extract_financial_entities.  financial_terms is
list(set(...)) in the source; the embedding fixes first-seen order for that
set-to-list conversion. -/
def extract_financial_entities (text : String) : FinancialEntities :=
  let cs := text.data
  let currency := (curScanF cs.length cs).map stripCur
  let percentages := (pctScanF cs.length cs).map stripPct
  let years := yearScanF cs.length false cs
  let numbers := numberScanF cs.length cs
  let clean_numbers := numbers.foldl
    (fun acc n =>
      let n_clean := stripComma n
      if n_clean ∉ currency ∧ n ∉ years ∧ n_clean ∉ percentages
      then acc ++ [n_clean] else acc)
    []
  let lowered := cs.map Char.toLower
  let financial_terms :=
    (termScanF (financialVocab.map (fun s => s.data)) lowered.length false lowered).dedup
  ⟨clean_numbers, currency, percentages, financial_terms, years⟩

/-- One entry of the ranked_results list built by _hybrid_rank: the fields
of the result dict that the grouping and the retrieval metrics read
(document doc_id and is_first_chunk metadata, combined score).  The
chunk_id metadata and the conversation-cache side effect of
_group_and_contextualize are elided: they do not influence the returned
list. -/
structure RankedResult where
  docId : String
  score : ℚ
  isFirstChunk : Bool
deriving DecidableEq, Repr

/-- The Python sort key (x score, is_first_chunk) compared as a tuple:
lexicographically, with False below True. -/
def sortKey (r : RankedResult) : ℚ ×ₗ Bool :=
  toLex (r.score, r.isFirstChunk)

/-- Whether x sorts strictly before b under the descending tuple sort. -/
def betterKey (x b : RankedResult) : Bool :=
  decide (sortKey b < sortKey x)

/-- The head of the group after a stable descending sort by (score,
is_first_chunk): the earliest element with maximal key.  Embeds
group.sort(reverse=True) followed by group[0]. -/
def pickBest (b : RankedResult) : List RankedResult → RankedResult
  | [] => b
  | x :: xs => pickBest (if betterKey x b then x else b) xs

/-- Grouping by doc_id in first-occurrence order (Python dict insertion
order), appending each result to its group. -/
def addToGroups : List (String × List RankedResult) → RankedResult → List (String × List RankedResult)
  | [], r => [(r.docId, [r])]
  | (d, g) :: rest, r =>
    if d = r.docId then (d, g ++ [r]) :: rest
    else (d, g) :: addToGroups rest r

/-- EnhancedRetriever._group_and_contextualize: one best chunk per doc_id.
Groups are built non-empty, so the empty-group branch is unreachable. -/
def group_and_contextualize (ranked_results : List RankedResult) : List RankedResult :=
  (ranked_results.foldl addToGroups []).map
    (fun p =>
      match p.2 with
      | [] => ⟨p.1, 0, false⟩
      | x :: xs => pickBest x xs)

/-! ### app/utils/metrics.py — retrieval metrics

calculate_retrieval_metrics works on the ranked-result dicts (reading
doc_id and the combined score) and a list of relevant doc ids.  All values
are rational except NDCG, which divides by real base-2 logarithms. -/

/-- The returned metrics dict of calculate_retrieval_metrics. -/
structure RetrievalMetrics where
  precision : ℚ
  «recall» : ℚ
  f1 : ℚ
  ndcg : ℝ
  mrr : ℚ

/-- Python list slicing l[:k] where k may be None. -/
def pySlice (k : Option ℕ) (l : List α) : List α :=
  match k with
  | none => l
  | some n => l.take n

/-- retrieved_ids: doc ids of the top-k results whose combined score
exceeds the 0.5 admission threshold. -/
def retrievedIds (retrieved_docs : List RankedResult) (k : Option ℕ) : List String :=
  ((pySlice k retrieved_docs).filter (fun d => decide ((0.5 : ℚ) < d.score))).map
    (fun d => d.docId)

/-- true_positives = the number of distinct retrieved ids that are
relevant (len of set intersection). -/
def truePositives (ids relSet : List String) : ℕ :=
  ((ids.dedup).filter (fun d => decide (d ∈ relSet))).length

/-- precision = TP / number of retrieved ids (0 if none). -/
def precisionVal (ids relSet : List String) : ℚ :=
  if ids ≠ [] then (truePositives ids relSet : ℚ) / ids.length else 0

/-- recall = TP / number of relevant ids (0 if none). -/
def recallVal (ids relSet : List String) : ℚ :=
  if relSet ≠ [] then (truePositives ids relSet : ℚ) / relSet.length else 0

/-- f1 = harmonic mean of precision and recall (0 when both are 0). -/
def f1Val (p r : ℚ) : ℚ :=
  if 0 < p + r then 2 * (p * r) / (p + r) else 0

/-- gain = (2^rel - 1) / log2(i + 2) for the 0-based position i. -/
noncomputable def gainVal (rel : ℕ) (i : ℕ) : ℝ :=
  ((2 : ℝ) ^ rel - 1) / Real.logb 2 ((i : ℝ) + 2)

/-- DCG of the retrieved ids starting at 0-based position i, with binary
relevance against relSet. -/
noncomputable def dcgFrom (relSet : List String) : List String → ℕ → ℝ
  | [], _ => 0
  | d :: ds, i => gainVal (if d ∈ relSet then 1 else 0) i + dcgFrom relSet ds (i + 1)

/-- IDCG: m consecutive rel = 1 positions starting at position i. -/
noncomputable def idcgFrom : ℕ → ℕ → ℝ
  | 0, _ => 0
  | m + 1, i => gainVal 1 i + idcgFrom m (i + 1)

/-- ndcg = DCG / IDCG, or 0 when IDCG is not positive. -/
noncomputable def ndcgVal (ids relSet : List String) : ℝ :=
  if 0 < idcgFrom relSet.length 0 then
    dcgFrom relSet ids 0 / idcgFrom relSet.length 0
  else 0

/-- The ranks list of the MRR loop: 1/(i+1) for every 0-based position i of
a relevant retrieved id, in order. -/
def ranksFrom (relSet : List String) : List String → ℕ → List ℚ
  | [], _ => []
  | d :: ds, i =>
    if d ∈ relSet then (1 / ((i : ℚ) + 1)) :: ranksFrom relSet ds (i + 1)
    else ranksFrom relSet ds (i + 1)

/-- Python max over a list of numbers (only applied to non-empty lists in
the source; 0 on the unreachable empty case). -/
def pyMax : List ℚ → ℚ
  | [] => 0
  | [x] => x
  | x :: y :: r => max x (pyMax (y :: r))

/-- mrr = max(ranks) if ranks else 0, guarded by the relevant set being
non-empty. -/
def mrrVal (ids relSet : List String) : ℚ :=
  if relSet ≠ [] then
    (if ranksFrom relSet ids 0 = [] then 0 else pyMax (ranksFrom relSet ids 0))
  else 0

/-- MetricsTracker.calculate_retrieval_metrics.  relevant_ids is
set(relevant_docs); membership tests and its cardinality go through dedup.
The debug printing and the appends to the in-memory metric lists are side
effects that do not influence the returned dict and are elided. -/
noncomputable def calculate_retrieval_metrics (retrieved_docs : List RankedResult)
    (relevant_docs : List String) (k : Option ℕ) : RetrievalMetrics :=
  if retrieved_docs = [] ∨ relevant_docs = [] then ⟨0, 0, 0, 0, 0⟩
  else
    let ids := retrievedIds retrieved_docs k
    let relSet := relevant_docs.dedup
    ⟨precisionVal ids relSet, recallVal ids relSet,
     f1Val (precisionVal ids relSet) (recallVal ids relSet),
     ndcgVal ids relSet, mrrVal ids relSet⟩

/-! ### app/utils/metrics.py — answer metrics -/

/-- MetricsTracker._tokenize_text: collapse whitespace, lowercase, keep
word tokens and basic punctuation, rejoin with single spaces. -/
def tokenize_text (text : String) : String :=
  let collapsed := joinSpace (pyWordsF text.data.length text.data)
  let lowered := collapsed.map Char.toLower
  String.mk (joinSpace (tokScanF lowered.length lowered))

/-- The returned dict of calculate_answer_metrics. -/
structure AnswerMetrics where
  answer_accuracy : ℚ
  exact_match : ℚ
  cosine_similarity : ℚ
  rouge1 : ℚ
  rouge2 : ℚ
  rougeL : ℚ
deriving DecidableEq, Repr

/-- MetricsTracker.calculate_answer_metrics.  The external collaborators
(embedding cosine similarity on the raw texts, ROUGE f-measures on the
canonicalized texts) are modelled by their returned values, passed as
arguments; the token-count side effect and the in-memory appends are
elided. -/
def calculate_answer_metrics (predicted_answer ground_truth : String)
    (cos_sim rouge1 rouge2 rougeL : ℚ) : AnswerMetrics :=
  let pred_clean := tokenize_text predicted_answer
  let truth_clean := tokenize_text ground_truth
  let exact_match : ℚ := if pred_clean = truth_clean then 1 else 0
  let semantic_match := (0.8 : ℚ) < cos_sim
  let rouge_match := (0.5 : ℚ) < rouge1
  let answer_accuracy : ℚ := if semantic_match ∨ rouge_match then 1 else 0
  ⟨answer_accuracy, exact_match, cos_sim, rouge1, rouge2, rougeL⟩

/-! ### app/utils/metrics_storage.py -/

/-- The aggregate_metrics record persisted by MetricsStorage (the fields
written by _reset_metrics and produced by get_aggregate_metrics). -/
structure AggregateMetrics where
  answer_accuracy : ℚ
  exact_match_rate : ℚ
  cosine_similarity : ℚ
  rouge1 : ℚ
  rouge2 : ℚ
  rougeL : ℚ
  retrieval_precision : ℚ
  retrieval_recall : ℚ
  f1_score : ℚ
  ndcg : ℚ
  mrr : ℚ
  response_latency : ℚ
  context_retention : ℚ
  total_questions : ℕ
  successful_retrievals : ℕ
  total_conversations : ℕ
  total_tokens : ℕ
deriving DecidableEq, Repr

/-- One metrics_history entry: timestamp plus the aggregate fields. -/
structure HistoryEntry where
  timestamp : String
  metrics : AggregateMetrics
deriving DecidableEq, Repr

/-- The persisted blob: metrics_history and aggregate_metrics. -/
structure MetricsState where
  metrics_history : List HistoryEntry
  aggregate_metrics : AggregateMetrics
deriving DecidableEq, Repr

/-- The initial state written by _reset_metrics: empty history, all-zero
aggregate. -/
def initialAggregate : AggregateMetrics :=
  ⟨0, 0, 0, 0, 0, 0, 0, 0, 0, 0, 0, 0, 0, 0, 0, 0, 0⟩

/-- MetricsStorage state directly after initialization. -/
def initialMetricsState : MetricsState :=
  ⟨[], initialAggregate⟩

/-- MetricsStorage.update_metrics: append the timestamped aggregate when
the history is empty or the new aggregate differs from the stored one,
truncate to the last 100 entries, and replace the aggregate slot; no-op
otherwise.  The timestamp string is an external input. -/
def update_metrics (now : String) (new_metrics : AggregateMetrics)
    (s : MetricsState) : MetricsState :=
  if s.metrics_history = [] ∨ new_metrics ≠ s.aggregate_metrics then
    let h := s.metrics_history ++ [⟨now, new_metrics⟩]
    ⟨h.drop (h.length - 100), new_metrics⟩
  else s

/-- A sequence of update_metrics calls, oldest first. -/
def runUpdates (s : MetricsState) (calls : List (String × AggregateMetrics)) : MetricsState :=
  calls.foldl (fun st c => update_metrics c.1 c.2 st) s

/-! ### Claim C5: the year class and the numbers list -/

/-- Claim C5 (code bug): on the input text 2023, the extractor is claimed
to keep the bare 4-digit year token (range 1900 to 2099) out of numbers.
In the source the year regex wraps its alternation in a capture group, so
re.findall stores only the two-character group 19 or 20; the exclusion
check then compares the full token 2023 against that list and never fires.
The year token therefore lands in numbers and the years list holds 20. -/
theorem extract_entities_year_bug :
    (extract_financial_entities "2023").numbers = ["2023"] ∧
    (extract_financial_entities "2023").years = ["20"] := by
  exact ⟨by decide, by decide⟩

/-! ### Claim C6: duplicate-freeness of the entity lists -/

/-- Claim C6 counterexample: the numbers list is not duplicate-free; on
the text 3 3 the extractor emits the token 3 twice (the source never
deduplicates numbers, currency, percentages or years). -/
theorem extract_entities_duplicates_counterexample :
    (extract_financial_entities "3 3").numbers = ["3", "3"] ∧
    ¬ (extract_financial_entities "3 3").numbers.Nodup := by
  exact ⟨by decide, by decide⟩

/-- Claim C6 (amended): only the financial_terms list (built through a
set) is guaranteed duplicate-free; the other four lists are emitted in
match order without deduplication. -/
theorem extract_entities_terms_nodup (text : String) :
    (extract_financial_entities text).financial_terms.Nodup := by
  simp only [extract_financial_entities]
  exact List.nodup_dedup _

/-! ### Claim C7: the metrics history store -/

/-- Claim C7 counterexample: directly after initialization the aggregate
slot already equals the all-zero aggregate, yet an update with that very
same aggregate appends one history entry (the source also appends whenever
the history is empty, not only when the aggregate changed). -/
theorem update_metrics_bootstrap_counterexample :
    initialAggregate = initialMetricsState.aggregate_metrics ∧
    (update_metrics "t0" initialAggregate initialMetricsState).metrics_history.length
      = initialMetricsState.metrics_history.length + 1 := by
  exact ⟨rfl, by decide⟩

/-- Any update keeps the history within the 100-entry cap. -/
theorem update_metrics_le_100 (now : String) (new_metrics : AggregateMetrics)
    (s : MetricsState) (h : s.metrics_history.length ≤ 100) :
    (update_metrics now new_metrics s).metrics_history.length ≤ 100 := by
  unfold update_metrics
  split
  · simp only [List.length_drop, List.length_append, List.length_cons,
      List.length_nil]
    omega
  · exact h

/-- Claim C7 (amended): the history never exceeds 100 entries over any
sequence of updates from the initial state; a call appends exactly one
entry (dropping the oldest beyond the cap) when the history is empty or
the new aggregate differs from the stored aggregate, and is a no-op
otherwise — the bootstrap append on an empty history happens even when the
aggregate is unchanged. -/
theorem update_metrics_spec (s : MetricsState) (now : String)
    (new_metrics : AggregateMetrics) (calls : List (String × AggregateMetrics)) :
    ((s.metrics_history = [] ∨ new_metrics ≠ s.aggregate_metrics) →
      (update_metrics now new_metrics s).metrics_history =
        (s.metrics_history ++ [(⟨now, new_metrics⟩ : HistoryEntry)]).drop
          (s.metrics_history.length + 1 - 100) ∧
      (update_metrics now new_metrics s).aggregate_metrics = new_metrics ∧
      (s.metrics_history.length < 100 →
        (update_metrics now new_metrics s).metrics_history
          = s.metrics_history ++ [(⟨now, new_metrics⟩ : HistoryEntry)])) ∧
    ((s.metrics_history ≠ [] ∧ new_metrics = s.aggregate_metrics) →
      update_metrics now new_metrics s = s) ∧
    (runUpdates initialMetricsState calls).metrics_history.length ≤ 100 := by
  refine ⟨?_, ?_, ?_⟩
  · intro hcond
    have hif : update_metrics now new_metrics s =
        ⟨(s.metrics_history ++ [(⟨now, new_metrics⟩ : HistoryEntry)]).drop
            ((s.metrics_history ++ [(⟨now, new_metrics⟩ : HistoryEntry)]).length - 100),
          new_metrics⟩ := by
      unfold update_metrics
      exact if_pos hcond
    have hlen : (s.metrics_history ++ [(⟨now, new_metrics⟩ : HistoryEntry)]).length
        = s.metrics_history.length + 1 := by
      simp
    refine ⟨by rw [hif, hlen], by rw [hif], ?_⟩
    intro hlt
    rw [hif, hlen]
    have : s.metrics_history.length + 1 - 100 = 0 := by omega
    rw [this, List.drop_zero]
  · intro ⟨h1, h2⟩
    unfold update_metrics
    rw [if_neg]
    push_neg
    exact ⟨h1, h2⟩
  · have step : ∀ (cs : List (String × AggregateMetrics)) (st : MetricsState),
        st.metrics_history.length ≤ 100 →
        (runUpdates st cs).metrics_history.length ≤ 100 := by
      intro cs
      induction cs with
      | nil => intro st h; exact h
      | cons c rest ih =>
        intro st h
        exact ih _ (update_metrics_le_100 c.1 c.2 st h)
    exact step calls initialMetricsState (by decide)

/-- Concrete use of the C7 amended theorem: from the initial state, an
update with a changed aggregate appends exactly its entry. -/
theorem update_metrics_spec_witness :
    (initialMetricsState.metrics_history = [] ∨
      (⟨1, 0, 0, 0, 0, 0, 0, 0, 0, 0, 0, 0, 0, 1, 0, 0, 0⟩ : AggregateMetrics)
        ≠ initialMetricsState.aggregate_metrics) ∧
    (update_metrics "t1" ⟨1, 0, 0, 0, 0, 0, 0, 0, 0, 0, 0, 0, 0, 1, 0, 0, 0⟩
        initialMetricsState).metrics_history
      = initialMetricsState.metrics_history
          ++ [⟨"t1", ⟨1, 0, 0, 0, 0, 0, 0, 0, 0, 0, 0, 0, 0, 1, 0, 0, 0⟩⟩] :=
  ⟨Or.inl (by decide),
    ((update_metrics_spec initialMetricsState "t1"
        ⟨1, 0, 0, 0, 0, 0, 0, 0, 0, 0, 0, 0, 0, 1, 0, 0, 0⟩ []).1
      (Or.inl (by decide))).2.2 (by decide)⟩

/-! ### Claim C8: exact match and answer accuracy -/

/-- Claim C8 counterexample: two answers that are canonically identical
(differing only in case and whitespace) yield exact_match 1, but when the
cosine similarity and ROUGE values delivered by the collaborators are low
(here all 0), answer_accuracy is 0 — it is decided solely by the cosine
and ROUGE thresholds, never by the exact match. -/
theorem answer_accuracy_counterexample :
    tokenize_text "Hello  World" = tokenize_text "hello world" ∧
    (calculate_answer_metrics "Hello  World" "hello world" 0 0 0 0).exact_match = 1 ∧
    (calculate_answer_metrics "Hello  World" "hello world" 0 0 0 0).answer_accuracy = 0 := by
  refine ⟨by decide, by decide, ?_⟩
  simp only [calculate_answer_metrics]
  rw [if_neg (by norm_num)]

/-- Claim C8 (amended): canonically identical texts always give
exact_match 1, and answer_accuracy is 1 exactly when the cosine similarity
exceeds 0.8 or the ROUGE-1 f-measure exceeds 0.5 — canonical identity by
itself does not force answer_accuracy to 1. -/
theorem exact_match_canonical (predicted_answer ground_truth : String)
    (cos_sim rouge1 rouge2 rougeL : ℚ)
    (h : tokenize_text predicted_answer = tokenize_text ground_truth) :
    (calculate_answer_metrics predicted_answer ground_truth
        cos_sim rouge1 rouge2 rougeL).exact_match = 1 ∧
    ((calculate_answer_metrics predicted_answer ground_truth
        cos_sim rouge1 rouge2 rougeL).answer_accuracy = 1 ↔
      ((0.8 : ℚ) < cos_sim ∨ (0.5 : ℚ) < rouge1)) := by
  unfold calculate_answer_metrics
  constructor
  · simp only [h, if_pos]
  · constructor
    · intro h1
      by_contra hc
      simp only [if_neg hc] at h1
      exact absurd h1 (by norm_num)
    · intro hc
      simp only [if_pos hc]

/-- Concrete use of the C8 amended theorem: identical texts with a high
cosine similarity give exact_match 1 and answer_accuracy 1. -/
theorem exact_match_canonical_witness :
    tokenize_text "Net sales grew." = tokenize_text "net  sales grew." ∧
    (calculate_answer_metrics "Net sales grew." "net  sales grew." 1 0 0 0).exact_match = 1 ∧
    (calculate_answer_metrics "Net sales grew." "net  sales grew." 1 0 0 0).answer_accuracy = 1 :=
  ⟨by decide,
    (exact_match_canonical "Net sales grew." "net  sales grew." 1 0 0 0 (by decide)).1,
    (exact_match_canonical "Net sales grew." "net  sales grew." 1 0 0 0 (by decide)).2.mpr
      (Or.inl (by norm_num))⟩

/-! ### Claim C9: query enhancement -/

/-- Claim C9: the enhancer collects numeric tokens and fixed-vocabulary
terms from the last two history messages only; with an absent or empty
history, or an empty collection, the query is returned unchanged, and
otherwise the result is the query, one space, and the joined terms. -/
theorem enhance_query_spec (query : String) (h : List ChatMessage) :
    enhance_query query none = query ∧
    enhance_query query (some []) = query ∧
    keyTerms h = keyTerms (h.drop (h.length - 2)) ∧
    (keyTerms h = [] → enhance_query query (some h) = query) ∧
    (keyTerms h ≠ [] →
      enhance_query query (some h)
        = query ++ " " ++ String.intercalate " " (keyTerms h)) := by
  have hdrop : (h.drop (h.length - 2)).drop ((h.drop (h.length - 2)).length - 2)
      = h.drop (h.length - 2) := by
    have h0 : (h.drop (h.length - 2)).length - 2 = 0 := by
      rw [List.length_drop]
      omega
    rw [h0, List.drop_zero]
  refine ⟨rfl, rfl, ?_, ?_, ?_⟩
  · simp only [keyTerms]
    rw [hdrop]
  · intro he
    by_cases hh : h = []
    · subst hh; rfl
    · simp only [enhance_query, if_neg hh, if_pos he]
  · intro hne
    have hh : h ≠ [] := by
      intro hh
      subst hh
      exact hne rfl
    simp only [enhance_query, if_neg hh, if_neg hne]

/-- Concrete use of the C9 theorem on Scenario B of the spec: a history
message containing a percentage, a year and a vocabulary term. -/
theorem enhance_query_spec_witness :
    keyTerms [⟨"user", "q"⟩, ⟨"assistant", "growth was 15% in 2022"⟩] ≠ [] ∧
    String.intercalate " "
        (keyTerms [⟨"user", "q"⟩, ⟨"assistant", "growth was 15% in 2022"⟩])
      = "15% 2022 growth" ∧
    enhance_query "revenue growth 2023"
        (some [⟨"user", "q"⟩, ⟨"assistant", "growth was 15% in 2022"⟩])
      = "revenue growth 2023" ++ " " ++ String.intercalate " "
          (keyTerms [⟨"user", "q"⟩, ⟨"assistant", "growth was 15% in 2022"⟩]) :=
  ⟨by decide, by decide,
    (enhance_query_spec "revenue growth 2023"
        [⟨"user", "q"⟩, ⟨"assistant", "growth was 15% in 2022"⟩]).2.2.2.2 (by decide)⟩

/-! ### Claim C10: fully filtered retrieval -/

/-- precision over an empty retrieved-id list is 0. -/
theorem precisionVal_nil (relSet : List String) : precisionVal [] relSet = 0 := by
  simp [precisionVal]

/-- recall over an empty retrieved-id list is 0. -/
theorem recallVal_nil (relSet : List String) : recallVal [] relSet = 0 := by
  simp [recallVal, truePositives]

/-- f1 of two zeros is 0. -/
theorem f1Val_zero : f1Val 0 0 = 0 := by
  simp [f1Val]

/-- ndcg over an empty retrieved-id list is 0. -/
theorem ndcgVal_nil (relSet : List String) : ndcgVal [] relSet = 0 := by
  unfold ndcgVal
  split
  · simp [dcgFrom]
  · rfl

/-- mrr over an empty retrieved-id list is 0. -/
theorem mrrVal_nil (relSet : List String) : mrrVal [] relSet = 0 := by
  simp [mrrVal, ranksFrom]

/-- Claim C10: with non-empty inputs whose combined scores are all at most
the 0.5 admission threshold, every retrieved id is filtered out and all
five metrics are 0. -/
theorem all_filtered_zero_metrics (retrieved_docs : List RankedResult)
    (relevant_docs : List String) (k : Option ℕ)
    (h1 : retrieved_docs ≠ []) (h2 : relevant_docs ≠ [])
    (hlow : ∀ r ∈ retrieved_docs, r.score ≤ (0.5 : ℚ)) :
    calculate_retrieval_metrics retrieved_docs relevant_docs k = ⟨0, 0, 0, 0, 0⟩ := by
  have hids : retrievedIds retrieved_docs k = [] := by
    unfold retrievedIds
    rw [List.map_eq_nil_iff, List.filter_eq_nil_iff]
    intro a ha
    have hmem : a ∈ retrieved_docs := by
      unfold pySlice at ha
      match k with
      | none => exact ha
      | some n => exact List.take_subset n retrieved_docs ha
    simp only [decide_eq_true_eq, not_lt]
    exact hlow a hmem
  unfold calculate_retrieval_metrics
  rw [if_neg (by push_neg; exact ⟨h1, h2⟩)]
  simp only [hids, precisionVal_nil, recallVal_nil, f1Val_zero, ndcgVal_nil, mrrVal_nil]

/-- Concrete use of the C10 theorem: one low-scoring retrieved result and
one relevant id give the all-zero metrics. -/
theorem all_filtered_zero_metrics_witness :
    (([⟨"a", 1/4, false⟩] : List RankedResult) ≠ []) ∧
    ((["r"] : List String) ≠ []) ∧
    (∀ r ∈ ([⟨"a", 1/4, false⟩] : List RankedResult), r.score ≤ (0.5 : ℚ)) ∧
    calculate_retrieval_metrics [⟨"a", 1/4, false⟩] ["r"] none = ⟨0, 0, 0, 0, 0⟩ := by
  have hlow : ∀ r ∈ ([⟨"a", 1/4, false⟩] : List RankedResult), r.score ≤ (0.5 : ℚ) := by
    intro r hr
    rw [List.mem_singleton] at hr
    subst hr
    norm_num
  exact ⟨by decide, by decide, hlow,
    all_filtered_zero_metrics [⟨"a", 1/4, false⟩] ["r"] none (by decide) (by decide) hlow⟩

/-! ### Claim C4: grouping keeps one maximal chunk per document -/

/-- Unfolding equation for addToGroups on a cons cell. -/
theorem addToGroups_cons (d : String) (g : List RankedResult)
    (rest : List (String × List RankedResult)) (r : RankedResult) :
    addToGroups ((d, g) :: rest) r
      = if d = r.docId then (d, g ++ [r]) :: rest
        else (d, g) :: addToGroups rest r := rfl

/-- Adding a result either leaves the key list unchanged or appends the
new doc id at the end. -/
theorem addToGroups_keys (gs : List (String × List RankedResult)) (r : RankedResult) :
    (addToGroups gs r).map Prod.fst
      = if r.docId ∈ gs.map Prod.fst then gs.map Prod.fst
        else gs.map Prod.fst ++ [r.docId] := by
  induction gs with
  | nil => simp [addToGroups]
  | cons q rest ih =>
    obtain ⟨d, g⟩ := q
    rw [addToGroups_cons]
    by_cases hd : d = r.docId
    · subst hd
      simp
    · rw [if_neg hd, List.map_cons, List.map_cons, ih]
      by_cases hm : r.docId ∈ rest.map Prod.fst
      · rw [if_pos hm, if_pos (List.mem_cons_of_mem _ hm)]
      · rw [if_neg hm, if_neg ?_, List.cons_append]
        intro hc
        rcases List.mem_cons.mp hc with h1 | h2
        · exact hd h1.symm
        · exact hm h2

/-- Adding a result preserves distinctness of the group keys. -/
theorem addToGroups_keys_nodup (gs : List (String × List RankedResult))
    (r : RankedResult) (h : (gs.map Prod.fst).Nodup) :
    ((addToGroups gs r).map Prod.fst).Nodup := by
  rw [addToGroups_keys]
  by_cases hm : r.docId ∈ gs.map Prod.fst
  · rw [if_pos hm]; exact h
  · rw [if_neg hm]
    simp [List.nodup_append, h, hm]

/-- Keys of the full fold are distinct. -/
theorem foldl_addToGroups_keys_nodup (l : List RankedResult) :
    ∀ gs, (gs.map Prod.fst).Nodup →
      ((l.foldl addToGroups gs).map Prod.fst).Nodup := by
  induction l with
  | nil => intro gs h; exact h
  | cons x xs ih =>
    intro gs h
    rw [List.foldl_cons]
    exact ih _ (addToGroups_keys_nodup gs x h)

/-- Group invariant: every group is non-empty and contains only results
with the group key as doc id, all satisfying Q; adding a result with Q
preserves the invariant. -/
theorem addToGroups_members (Q : RankedResult → Prop) (r : RankedResult) (hr : Q r) :
    ∀ gs, (∀ p ∈ gs, p.2 ≠ [] ∧ ∀ x ∈ p.2, Q x ∧ x.docId = p.1) →
      ∀ p ∈ addToGroups gs r, p.2 ≠ [] ∧ ∀ x ∈ p.2, Q x ∧ x.docId = p.1 := by
  intro gs
  induction gs with
  | nil =>
    intro _ p hp
    simp only [addToGroups, List.mem_singleton] at hp
    subst hp
    refine ⟨by simp, ?_⟩
    intro x hx
    rw [List.mem_singleton] at hx
    subst hx
    exact ⟨hr, rfl⟩
  | cons q rest ih =>
    obtain ⟨d, g⟩ := q
    intro h p hp
    rw [addToGroups_cons] at hp
    by_cases hd : d = r.docId
    · rw [if_pos hd] at hp
      rcases List.mem_cons.mp hp with h1 | h2
      · subst h1
        have hq := h (d, g) (List.mem_cons_self _ _)
        refine ⟨by simp, ?_⟩
        intro x hx
        rcases List.mem_append.mp hx with hx1 | hx2
        · exact hq.2 x hx1
        · rw [List.mem_singleton] at hx2
          subst hx2
          exact ⟨hr, hd.symm⟩
      · exact h p (List.mem_cons_of_mem _ h2)
    · rw [if_neg hd] at hp
      rcases List.mem_cons.mp hp with h1 | h2
      · subst h1
        exact h (d, g) (List.mem_cons_self _ _)
      · exact ih (fun q hq => h q (List.mem_cons_of_mem _ hq)) p h2

/-- Group invariant carried through the full fold. -/
theorem foldl_addToGroups_members (Q : RankedResult → Prop) :
    ∀ (l : List RankedResult) gs, (∀ x ∈ l, Q x) →
      (∀ p ∈ gs, p.2 ≠ [] ∧ ∀ x ∈ p.2, Q x ∧ x.docId = p.1) →
      ∀ p ∈ l.foldl addToGroups gs, p.2 ≠ [] ∧ ∀ x ∈ p.2, Q x ∧ x.docId = p.1 := by
  intro l
  induction l with
  | nil => intro gs _ h; exact h
  | cons x xs ih =>
    intro gs hl h
    rw [List.foldl_cons]
    exact ih _ (fun y hy => hl y (List.mem_cons_of_mem _ hy))
      (addToGroups_members Q x (hl x (List.mem_cons_self _ _)) gs h)

/-- Groups only grow when a result is added. -/
theorem addToGroups_grow (r : RankedResult) :
    ∀ gs (d : String) (g : List RankedResult), (d, g) ∈ gs →
      ∃ g2, (d, g2) ∈ addToGroups gs r ∧ ∀ x ∈ g, x ∈ g2 := by
  intro gs
  induction gs with
  | nil => intro d g h; simp at h
  | cons q rest ih =>
    obtain ⟨d0, g0⟩ := q
    intro d g h
    rw [addToGroups_cons]
    by_cases hd : d0 = r.docId
    · rw [if_pos hd]
      rcases List.mem_cons.mp h with h1 | h2
      · obtain ⟨h1a, h1b⟩ := Prod.mk.injEq .. ▸ h1
        subst h1a
        subst h1b
        exact ⟨g ++ [r], List.mem_cons_self _ _, fun x hx => List.mem_append_left _ hx⟩
      · exact ⟨g, List.mem_cons_of_mem _ h2, fun x hx => hx⟩
    · rw [if_neg hd]
      rcases List.mem_cons.mp h with h1 | h2
      · exact ⟨g, h1 ▸ List.mem_cons_self _ _, fun x hx => hx⟩
      · obtain ⟨g2, hmem, hsub⟩ := ih d g h2
        exact ⟨g2, List.mem_cons_of_mem _ hmem, hsub⟩

/-- Groups only grow along a fold. -/
theorem foldl_addToGroups_grow :
    ∀ (l : List RankedResult) gs (d : String) (g : List RankedResult), (d, g) ∈ gs →
      ∃ g2, (d, g2) ∈ l.foldl addToGroups gs ∧ ∀ x ∈ g, x ∈ g2 := by
  intro l
  induction l with
  | nil => intro gs d g h; exact ⟨g, h, fun x hx => hx⟩
  | cons y ys ih =>
    intro gs d g h
    rw [List.foldl_cons]
    obtain ⟨g1, h1, s1⟩ := addToGroups_grow y gs d g h
    obtain ⟨g2, h2, s2⟩ := ih _ d g1 h1
    exact ⟨g2, h2, fun x hx => s2 x (s1 x hx)⟩

/-- The added result lands in the group keyed by its doc id. -/
theorem addToGroups_self (r : RankedResult) :
    ∀ gs, ∃ g, (r.docId, g) ∈ addToGroups gs r ∧ r ∈ g := by
  intro gs
  induction gs with
  | nil => exact ⟨[r], by simp [addToGroups], by simp⟩
  | cons q rest ih =>
    obtain ⟨d0, g0⟩ := q
    rw [addToGroups_cons]
    by_cases hd : d0 = r.docId
    · subst hd
      rw [if_pos rfl]
      exact ⟨g0 ++ [r], List.mem_cons_self _ _, List.mem_append_right _ (by simp)⟩
    · rw [if_neg hd]
      obtain ⟨g, hg, hr⟩ := ih
      exact ⟨g, List.mem_cons_of_mem _ hg, hr⟩

/-- Every processed result is found in the group keyed by its doc id. -/
theorem foldl_addToGroups_complete :
    ∀ (l : List RankedResult) gs (y : RankedResult), y ∈ l →
      ∃ g, (y.docId, g) ∈ l.foldl addToGroups gs ∧ y ∈ g := by
  intro l
  induction l with
  | nil => intro gs y h; simp at h
  | cons x xs ih =>
    intro gs y h
    rw [List.foldl_cons]
    rcases List.mem_cons.mp h with h1 | h2
    · subst h1
      obtain ⟨g, hg, hy⟩ := addToGroups_self y gs
      obtain ⟨g2, hg2, hs⟩ := foldl_addToGroups_grow xs (addToGroups gs y) y.docId g hg
      exact ⟨g2, hg2, hs y hy⟩
    · exact ih _ y h2

/-- With distinct keys there is at most one group per key. -/
theorem keys_nodup_unique :
    ∀ (gs : List (String × List RankedResult)), (gs.map Prod.fst).Nodup →
      ∀ (d : String) (g g2 : List RankedResult), (d, g) ∈ gs → (d, g2) ∈ gs → g = g2 := by
  intro gs
  induction gs with
  | nil => intro _ d g g2 h; simp at h
  | cons q rest ih =>
    intro hnd d g g2 h1 h2
    rw [List.map_cons, List.nodup_cons] at hnd
    rcases List.mem_cons.mp h1 with e1 | m1 <;> rcases List.mem_cons.mp h2 with e2 | m2
    · exact congrArg Prod.snd (e1.trans e2.symm)
    · exact absurd (List.mem_map.mpr ⟨(d, g2), m2, (e1 ▸ rfl : (d, g2).1 = q.1)⟩) hnd.1
    · exact absurd (List.mem_map.mpr ⟨(d, g), m1, (e2 ▸ rfl : (d, g).1 = q.1)⟩) hnd.1
    · exact ih hnd.2 d g g2 m1 m2

/-- pickBest returns an element of the group. -/
theorem pickBest_mem : ∀ (xs : List RankedResult) (b : RankedResult),
    pickBest b xs ∈ b :: xs := by
  intro xs
  induction xs with
  | nil => intro b; simp [pickBest]
  | cons x xs ih =>
    intro b
    rw [show pickBest b (x :: xs) = pickBest (if betterKey x b then x else b) xs from rfl]
    rcases List.mem_cons.mp (ih (if betterKey x b then x else b)) with h1 | h2
    · rw [h1]
      split
      · exact List.mem_cons_of_mem _ (List.mem_cons_self _ _)
      · exact List.mem_cons_self _ _
    · exact List.mem_cons_of_mem _ (List.mem_cons_of_mem _ h2)

/-- pickBest dominates every element of the group in the (score,
is_first_chunk) order. -/
theorem pickBest_le : ∀ (xs : List RankedResult) (b y : RankedResult),
    y ∈ b :: xs → sortKey y ≤ sortKey (pickBest b xs) := by
  intro xs
  induction xs with
  | nil =>
    intro b y hy
    rw [List.mem_singleton] at hy
    subst hy
    exact le_refl _
  | cons x xs ih =>
    intro b y hy
    have hstep : sortKey b ≤ sortKey (if betterKey x b then x else b) ∧
        sortKey x ≤ sortKey (if betterKey x b then x else b) := by
      by_cases hb : betterKey x b = true
      · simp only [betterKey, decide_eq_true_eq] at hb
        rw [if_pos (by simp only [betterKey]; exact decide_eq_true hb)]
        exact ⟨le_of_lt hb, le_refl _⟩
      · have hnb : ¬ sortKey b < sortKey x := by
          intro hc
          exact hb (by simp only [betterKey]; exact decide_eq_true hc)
        rw [if_neg hb]
        exact ⟨le_refl _, not_lt.mp hnb⟩
    rw [show pickBest b (x :: xs) = pickBest (if betterKey x b then x else b) xs from rfl]
    rcases List.mem_cons.mp hy with h1 | h2
    · subst h1
      exact le_trans hstep.1 (ih _ _ (List.mem_cons_self _ _))
    rcases List.mem_cons.mp h2 with h3 | h4
    · subst h3
      exact le_trans hstep.2 (ih _ _ (List.mem_cons_self _ _))
    · exact ih _ y (List.mem_cons_of_mem _ h4)

/-- Claim C4: grouping yields at most one result per doc id; the kept
result belongs to the input and has a maximal combined score within its
document group, and on a score tie a chunk with is_first_chunk true is
never beaten by one without it. -/
theorem group_and_contextualize_spec (ranked_results : List RankedResult) :
    ((group_and_contextualize ranked_results).map (fun b => b.docId)).Nodup ∧
    ∀ b ∈ group_and_contextualize ranked_results, b ∈ ranked_results ∧
      ∀ y ∈ ranked_results, y.docId = b.docId →
        y.score ≤ b.score ∧
        (y.score = b.score → y.isFirstChunk = true → b.isFirstChunk = true) := by
  have hinv : ∀ p ∈ ranked_results.foldl addToGroups [],
      p.2 ≠ [] ∧ ∀ x ∈ p.2, x ∈ ranked_results ∧ x.docId = p.1 :=
    foldl_addToGroups_members (fun x => x ∈ ranked_results) ranked_results []
      (fun _ hx => hx) (by simp)
  have hkeys : ((ranked_results.foldl addToGroups []).map Prod.fst).Nodup :=
    foldl_addToGroups_keys_nodup ranked_results [] (by simp)
  have hbest : ∀ p ∈ ranked_results.foldl addToGroups [],
      (match p.2 with
        | [] => (⟨p.1, 0, false⟩ : RankedResult)
        | x :: xs => pickBest x xs) ∈ p.2 ∧
      ∀ y ∈ p.2, sortKey y ≤ sortKey (match p.2 with
        | [] => (⟨p.1, 0, false⟩ : RankedResult)
        | x :: xs => pickBest x xs) := by
    intro p hp
    obtain ⟨hne, _⟩ := hinv p hp
    rcases hp2 : p.2 with _ | ⟨x, xs⟩
    · exact absurd hp2 hne
    · exact ⟨pickBest_mem xs x, fun y hy => pickBest_le xs x y hy⟩
  constructor
  · have hmapeq : (group_and_contextualize ranked_results).map (fun b => b.docId)
        = (ranked_results.foldl addToGroups []).map Prod.fst := by
      unfold group_and_contextualize
      rw [List.map_map]
      refine List.map_congr_left ?_
      intro p hp
      obtain ⟨hmem, _⟩ := hbest p hp
      exact ((hinv p hp).2 _ hmem).2
    rw [hmapeq]
    exact hkeys
  · intro b hb
    unfold group_and_contextualize at hb
    rw [List.mem_map] at hb
    obtain ⟨p, hp, hbp⟩ := hb
    obtain ⟨hmem, hdom⟩ := hbest p hp
    rw [hbp] at hmem hdom
    obtain ⟨hbl, hbd⟩ := (hinv p hp).2 b hmem
    refine ⟨hbl, ?_⟩
    intro y hyl hyd
    obtain ⟨g, hgmem, hyg⟩ := foldl_addToGroups_complete ranked_results [] y hyl
    rw [hyd, hbd] at hgmem
    have hgp : g = p.2 := keys_nodup_unique _ hkeys p.1 g p.2 hgmem hp
    rw [hgp] at hyg
    have hle := hdom y hyg
    simp only [sortKey] at hle
    rcases (Prod.Lex.le_iff _ _).mp hle with hlt | ⟨heq, hbool⟩
    · exact ⟨le_of_lt hlt, fun heq2 => absurd (heq2 ▸ hlt) (lt_irrefl _)⟩
    · exact ⟨le_of_eq heq, fun _ hy => Bool.eq_true_of_true_le (hy ▸ hbool)⟩

/-- Concrete use of the C4 theorem: two chunks of document d tie on score
1; the kept chunk is the one with is_first_chunk true, and it dominates
the losing chunk. -/
theorem group_and_contextualize_spec_witness :
    (⟨"d", 1, true⟩ : RankedResult) ∈
      group_and_contextualize [⟨"d", 1, false⟩, ⟨"d", 1, true⟩, ⟨"e", 2, false⟩] ∧
    (⟨"d", 1, false⟩ : RankedResult) ∈
      ([⟨"d", 1, false⟩, ⟨"d", 1, true⟩, ⟨"e", 2, false⟩] : List RankedResult) ∧
    ((⟨"d", 1, false⟩ : RankedResult).score ≤ (⟨"d", 1, true⟩ : RankedResult).score ∧
      ((⟨"d", 1, false⟩ : RankedResult).score = (⟨"d", 1, true⟩ : RankedResult).score →
        (⟨"d", 1, false⟩ : RankedResult).isFirstChunk = true →
        (⟨"d", 1, true⟩ : RankedResult).isFirstChunk = true)) :=
  ⟨by decide, by decide,
    (((group_and_contextualize_spec
          [⟨"d", 1, false⟩, ⟨"d", 1, true⟩, ⟨"e", 2, false⟩]).2
        ⟨"d", 1, true⟩ (by decide)).2 ⟨"d", 1, false⟩ (by decide) (by decide))⟩

/-! ### Claim C3: MRR is the reciprocal rank of the first relevant hit -/

/-- Unfolding equation for ranksFrom on a cons cell. -/
theorem ranksFrom_cons (relSet : List String) (d : String) (ds : List String) (i : ℕ) :
    ranksFrom relSet (d :: ds) i
      = if d ∈ relSet then (1 / ((i : ℚ) + 1)) :: ranksFrom relSet ds (i + 1)
        else ranksFrom relSet ds (i + 1) := rfl

/-- Every recorded rank is positive and at most the rank of the current
position. -/
theorem ranksFrom_mem_bounds (relSet : List String) :
    ∀ (ids : List String) (i : ℕ) (x : ℚ), x ∈ ranksFrom relSet ids i →
      0 < x ∧ x ≤ 1 / ((i : ℚ) + 1) := by
  intro ids
  induction ids with
  | nil => intro i x hx; simp [ranksFrom] at hx
  | cons d ds ih =>
    intro i x hx
    have hshift : 1 / (((i + 1 : ℕ) : ℚ) + 1) ≤ 1 / ((i : ℚ) + 1) := by
      apply one_div_le_one_div_of_le
      · positivity
      · push_cast
        linarith
    by_cases hd : d ∈ relSet
    · rw [ranksFrom_cons, if_pos hd] at hx
      rcases List.mem_cons.mp hx with h1 | h2
      · subst h1
        refine ⟨by positivity, le_refl _⟩
      · obtain ⟨hp, hle⟩ := ih (i + 1) x h2
        exact ⟨hp, le_trans hle hshift⟩
    · rw [ranksFrom_cons, if_neg hd] at hx
      obtain ⟨hp, hle⟩ := ih (i + 1) x hx
      exact ⟨hp, le_trans hle hshift⟩

/-- If no retrieved id is relevant, no rank is recorded. -/
theorem ranksFrom_eq_nil (relSet : List String) :
    ∀ (ids : List String) (i : ℕ), (∀ d ∈ ids, d ∉ relSet) →
      ranksFrom relSet ids i = [] := by
  intro ids
  induction ids with
  | nil => intro i _; rfl
  | cons d ds ih =>
    intro i h
    rw [ranksFrom_cons, if_neg (h d (List.mem_cons_self _ _))]
    exact ih (i + 1) (fun x hx => h x (List.mem_cons_of_mem _ hx))

/-- A relevant retrieved id forces at least one recorded rank. -/
theorem ranksFrom_ne_nil (relSet : List String) :
    ∀ (ids : List String) (i : ℕ) (d : String), d ∈ ids → d ∈ relSet →
      ranksFrom relSet ids i ≠ [] := by
  intro ids
  induction ids with
  | nil => intro i d h; simp at h
  | cons a as ih =>
    intro i d hd hrel
    by_cases ha : a ∈ relSet
    · rw [ranksFrom_cons, if_pos ha]
      exact List.cons_ne_nil _ _
    · rw [ranksFrom_cons, if_neg ha]
      rcases List.mem_cons.mp hd with h1 | h2
      · exact absurd (h1 ▸ hrel) ha
      · exact ih (i + 1) d h2 hrel

/-- Unfolding equation for pyMax on a cons cell. -/
theorem pyMax_cons (x : ℚ) (xs : List ℚ) :
    pyMax (x :: xs) = if xs = [] then x else max x (pyMax xs) := by
  cases xs with
  | nil => simp [pyMax]
  | cons y ys => simp [pyMax]

/-- Python max of a non-empty list is one of its elements. -/
theorem pyMax_mem : ∀ (l : List ℚ), l ≠ [] → pyMax l ∈ l := by
  intro l
  induction l with
  | nil => intro h; exact absurd rfl h
  | cons x xs ih =>
    intro _
    cases xs with
    | nil => simp [pyMax]
    | cons y ys =>
      rw [show pyMax (x :: y :: ys) = max x (pyMax (y :: ys)) from rfl]
      rcases max_cases x (pyMax (y :: ys)) with ⟨he, _⟩ | ⟨he, _⟩
      · rw [he]
        exact List.mem_cons_self _ _
      · rw [he]
        exact List.mem_cons_of_mem _ (ih (by simp))

/-- Python max dominates every element. -/
theorem le_pyMax : ∀ (l : List ℚ) (x : ℚ), x ∈ l → x ≤ pyMax l := by
  intro l
  induction l with
  | nil => intro x h; simp at h
  | cons a as ih =>
    intro x h
    cases as with
    | nil =>
      rw [List.mem_singleton] at h
      subst h
      exact le_of_eq rfl
    | cons b bs =>
      rw [show pyMax (a :: b :: bs) = max a (pyMax (b :: bs)) from rfl]
      rcases List.mem_cons.mp h with h1 | h2
      · subst h1
        exact le_max_left _ _
      · exact le_trans (ih x h2) (le_max_right _ _)

/-- The maximum recorded rank is the reciprocal rank of the first
relevant position. -/
theorem pyMax_ranksFrom (relSet : List String) :
    ∀ (ids : List String) (i : ℕ),
      ids.findIdx (fun x => decide (x ∈ relSet)) < ids.length →
      pyMax (ranksFrom relSet ids i)
        = 1 / (((i + ids.findIdx (fun x => decide (x ∈ relSet)) : ℕ) : ℚ) + 1) := by
  intro ids
  induction ids with
  | nil => intro i h; simp at h
  | cons d ds ih =>
    intro i h
    by_cases hd : d ∈ relSet
    · have hidx : (d :: ds).findIdx (fun x => decide (x ∈ relSet)) = 0 := by
        rw [List.findIdx_cons]
        simp [hd]
      rw [hidx, ranksFrom_cons, if_pos hd, pyMax_cons]
      have hgoal : (1 : ℚ) / ((i : ℚ) + 1) = 1 / (((i + 0 : ℕ) : ℚ) + 1) := by
        norm_num
      split
      · exact hgoal
      · rename_i hrest
        have hub : pyMax (ranksFrom relSet ds (i + 1)) ≤ 1 / (((i + 1 : ℕ) : ℚ) + 1) :=
          (ranksFrom_mem_bounds relSet ds (i + 1) _ (pyMax_mem _ hrest)).2
        have hshift : 1 / (((i + 1 : ℕ) : ℚ) + 1) ≤ 1 / ((i : ℚ) + 1) := by
          apply one_div_le_one_div_of_le
          · positivity
          · push_cast
            linarith
        rw [max_eq_left (le_trans hub hshift)]
        exact hgoal
    · have hidx : (d :: ds).findIdx (fun x => decide (x ∈ relSet))
          = ds.findIdx (fun x => decide (x ∈ relSet)) + 1 := by
        rw [List.findIdx_cons]
        simp [hd]
      rw [hidx] at h ⊢
      have hlen : ds.findIdx (fun x => decide (x ∈ relSet)) < ds.length := by
        rw [List.length_cons] at h
        omega
      rw [ranksFrom_cons, if_neg hd, ih (i + 1) hlen]
      have harith : i + 1 + ds.findIdx (fun x => decide (x ∈ relSet))
          = i + (ds.findIdx (fun x => decide (x ∈ relSet)) + 1) := by
        omega
      rw [harith]

/-- retrievedIds of an empty result list is empty. -/
theorem retrievedIds_nil (k : Option ℕ) : retrievedIds [] k = [] := by
  cases k with
  | none => rfl
  | some n => simp [retrievedIds, pySlice]

/-- Unfolding of calculate_retrieval_metrics on non-empty inputs. -/
theorem calculate_retrieval_metrics_eq (retrieved_docs : List RankedResult)
    (relevant_docs : List String) (k : Option ℕ)
    (h1 : retrieved_docs ≠ []) (h2 : relevant_docs ≠ []) :
    calculate_retrieval_metrics retrieved_docs relevant_docs k =
      ⟨precisionVal (retrievedIds retrieved_docs k) relevant_docs.dedup,
       recallVal (retrievedIds retrieved_docs k) relevant_docs.dedup,
       f1Val (precisionVal (retrievedIds retrieved_docs k) relevant_docs.dedup)
         (recallVal (retrievedIds retrieved_docs k) relevant_docs.dedup),
       ndcgVal (retrievedIds retrieved_docs k) relevant_docs.dedup,
       mrrVal (retrievedIds retrieved_docs k) relevant_docs.dedup⟩ := by
  unfold calculate_retrieval_metrics
  rw [if_neg (by push_neg; exact ⟨h1, h2⟩)]

/-- Claim C3: the MRR (maximum of the reciprocal ranks of the relevant
positions) equals the reciprocal rank of the first relevant id in the
thresholded retrieval order, and it is 0 exactly when no relevant id is
retrieved. -/
theorem mrr_first_relevant (retrieved_docs : List RankedResult)
    (relevant_docs : List String) (k : Option ℕ) :
    ((retrievedIds retrieved_docs k).findIdx
        (fun x => decide (x ∈ relevant_docs.dedup))
        < (retrievedIds retrieved_docs k).length →
      (calculate_retrieval_metrics retrieved_docs relevant_docs k).mrr
        = 1 / ((((retrievedIds retrieved_docs k).findIdx
            (fun x => decide (x ∈ relevant_docs.dedup)) : ℕ) : ℚ) + 1)) ∧
    ((calculate_retrieval_metrics retrieved_docs relevant_docs k).mrr = 0 ↔
      ∀ d ∈ retrievedIds retrieved_docs k, d ∉ relevant_docs) := by
  by_cases hempty : retrieved_docs = [] ∨ relevant_docs = []
  · have hm : calculate_retrieval_metrics retrieved_docs relevant_docs k = ⟨0, 0, 0, 0, 0⟩ := by
      unfold calculate_retrieval_metrics
      rw [if_pos hempty]
    rcases hempty with he | he
    · subst he
      rw [hm]
      refine ⟨?_, ?_⟩
      · intro hidx
        rw [retrievedIds_nil] at hidx
        simp at hidx
      · constructor
        · intro _ d hd
          rw [retrievedIds_nil] at hd
          simp at hd
        · intro _
          rfl
    · subst he
      rw [hm]
      refine ⟨?_, ?_⟩
      · intro hidx
        exfalso
        obtain ⟨x, _, hx⟩ := List.findIdx_lt_length.mp hidx
        simp at hx
      · exact ⟨fun _ d _ hd => (List.not_mem_nil d) hd, fun _ => rfl⟩
  · push_neg at hempty
    obtain ⟨h1, h2⟩ := hempty
    have hrelne : relevant_docs.dedup ≠ [] := by
      rw [ne_eq, List.dedup_eq_nil]
      exact h2
    rw [calculate_retrieval_metrics_eq retrieved_docs relevant_docs k h1 h2]
    constructor
    · intro hidx
      obtain ⟨x, hxmem, hx⟩ := List.findIdx_lt_length.mp hidx
      rw [decide_eq_true_eq] at hx
      have hne := ranksFrom_ne_nil relevant_docs.dedup (retrievedIds retrieved_docs k) 0
        x hxmem hx
      show mrrVal _ _ = _
      unfold mrrVal
      rw [if_pos hrelne, if_neg hne, pyMax_ranksFrom _ _ 0 hidx]
      norm_num
    · show mrrVal _ _ = 0 ↔ _
      unfold mrrVal
      rw [if_pos hrelne]
      constructor
      · intro h0 d hd hdrel
        have hdrel2 : d ∈ relevant_docs.dedup := List.mem_dedup.mpr hdrel
        have hne := ranksFrom_ne_nil relevant_docs.dedup (retrievedIds retrieved_docs k) 0
          d hd hdrel2
        rw [if_neg hne] at h0
        have hpos := (ranksFrom_mem_bounds relevant_docs.dedup
          (retrievedIds retrieved_docs k) 0 _ (pyMax_mem _ hne)).1
        rw [h0] at hpos
        exact lt_irrefl 0 hpos
      · intro hall
        rw [if_pos (ranksFrom_eq_nil relevant_docs.dedup (retrievedIds retrieved_docs k) 0
          (fun d hd hc => hall d hd (List.mem_dedup.mp hc)))]

/-- Concrete use of the C3 theorem: the first relevant id sits at 0-based
position 1 of the thresholded list, so MRR is 1/2, and MRR is not 0. -/
theorem mrr_first_relevant_witness :
    (retrievedIds [⟨"x", 1, false⟩, ⟨"a", 1, false⟩, ⟨"a", 2, false⟩] none).findIdx
        (fun x => decide (x ∈ (["a", "a"] : List String).dedup))
        < (retrievedIds [⟨"x", 1, false⟩, ⟨"a", 1, false⟩, ⟨"a", 2, false⟩] none).length ∧
    (calculate_retrieval_metrics [⟨"x", 1, false⟩, ⟨"a", 1, false⟩, ⟨"a", 2, false⟩]
        ["a", "a"] none).mrr
      = 1 / ((((retrievedIds [⟨"x", 1, false⟩, ⟨"a", 1, false⟩, ⟨"a", 2, false⟩] none).findIdx
          (fun x => decide (x ∈ (["a", "a"] : List String).dedup)) : ℕ) : ℚ) + 1) := by
  have hids : retrievedIds [⟨"x", 1, false⟩, ⟨"a", 1, false⟩, ⟨"a", 2, false⟩] none
      = ["x", "a", "a"] := by
    norm_num [retrievedIds, pySlice]
  have hidx : (retrievedIds [⟨"x", 1, false⟩, ⟨"a", 1, false⟩, ⟨"a", 2, false⟩] none).findIdx
      (fun x => decide (x ∈ (["a", "a"] : List String).dedup))
      < (retrievedIds [⟨"x", 1, false⟩, ⟨"a", 1, false⟩, ⟨"a", 2, false⟩] none).length := by
    rw [hids]
    decide
  exact ⟨hidx,
    (mrr_first_relevant [⟨"x", 1, false⟩, ⟨"a", 1, false⟩, ⟨"a", 2, false⟩]
        ["a", "a"] none).1 hidx⟩

/-! ### NDCG machinery for claims C1 and C2 -/

/-- The per-position discount log2(i + 2) is positive. -/
theorem logb_pos_nat (i : ℕ) : 0 < Real.logb 2 ((i : ℝ) + 2) := by
  apply Real.logb_pos (by norm_num)
  have := Nat.cast_nonneg (α := ℝ) i
  linarith

/-- The gain of a relevant position. -/
theorem gainVal_one (i : ℕ) : gainVal 1 i = 1 / Real.logb 2 ((i : ℝ) + 2) := by
  unfold gainVal
  norm_num

/-- The gain of an irrelevant position is 0. -/
theorem gainVal_zero (i : ℕ) : gainVal 0 i = 0 := by
  unfold gainVal
  norm_num

/-- Relevant gains are positive. -/
theorem gainVal_one_pos (i : ℕ) : 0 < gainVal 1 i := by
  rw [gainVal_one]
  exact one_div_pos.mpr (logb_pos_nat i)

/-- Relevant gains strictly decrease with the position. -/
theorem gainVal_one_lt (i j : ℕ) (h : i < j) : gainVal 1 j < gainVal 1 i := by
  rw [gainVal_one, gainVal_one]
  apply one_div_lt_one_div_of_lt (logb_pos_nat i)
  apply Real.logb_lt_logb (by norm_num)
  · have := Nat.cast_nonneg (α := ℝ) i
    linarith
  · have : (i : ℝ) < (j : ℝ) := Nat.cast_lt.mpr h
    linarith

/-- Relevant gains weakly decrease with the position. -/
theorem gainVal_one_le (i j : ℕ) (h : i ≤ j) : gainVal 1 j ≤ gainVal 1 i := by
  rcases Nat.lt_or_ge i j with hlt | hge
  · exact le_of_lt (gainVal_one_lt i j hlt)
  · have : i = j := le_antisymm h hge
    rw [this]

/-- IDCG is non-negative. -/
theorem idcgFrom_nonneg : ∀ (m i : ℕ), 0 ≤ idcgFrom m i := by
  intro m
  induction m with
  | zero => intro i; exact le_refl 0
  | succ m ih =>
    intro i
    have := gainVal_one_pos i
    have := ih (i + 1)
    show 0 ≤ gainVal 1 i + idcgFrom m (i + 1)
    linarith

/-- IDCG over at least one position is positive. -/
theorem idcgFrom_pos (m i : ℕ) (h : 0 < m) : 0 < idcgFrom m i := by
  cases m with
  | zero => omega
  | succ m =>
    have := gainVal_one_pos i
    have := idcgFrom_nonneg m (i + 1)
    show 0 < gainVal 1 i + idcgFrom m (i + 1)
    linarith

/-- Shifting the start of the ideal block right cannot increase IDCG. -/
theorem idcgFrom_shift_le : ∀ (m i : ℕ), idcgFrom m (i + 1) ≤ idcgFrom m i := by
  intro m
  induction m with
  | zero => intro i; exact le_refl 0
  | succ m ih =>
    intro i
    show gainVal 1 (i + 1) + idcgFrom m (i + 2) ≤ gainVal 1 i + idcgFrom m (i + 1)
    have h1 := gainVal_one_le i (i + 1) (by omega)
    have h2 := ih (i + 1)
    linarith

/-- Shifting the start right strictly decreases a non-empty IDCG block. -/
theorem idcgFrom_shift_lt (m i : ℕ) (h : 0 < m) : idcgFrom m (i + 1) < idcgFrom m i := by
  cases m with
  | zero => omega
  | succ m =>
    show gainVal 1 (i + 1) + idcgFrom m (i + 2) < gainVal 1 i + idcgFrom m (i + 1)
    have h1 := gainVal_one_lt i (i + 1) (by omega)
    have h2 := idcgFrom_shift_le m (i + 1)
    linarith

/-- IDCG is monotone in the number of relevant positions. -/
theorem idcgFrom_le_idcgFrom : ∀ (m n i : ℕ), m ≤ n → idcgFrom m i ≤ idcgFrom n i := by
  intro m
  induction m with
  | zero => intro n i _; exact idcgFrom_nonneg n i
  | succ m ih =>
    intro n i h
    cases n with
    | zero => omega
    | succ n =>
      show gainVal 1 i + idcgFrom m (i + 1) ≤ gainVal 1 i + idcgFrom n (i + 1)
      exact add_le_add_left (ih n (i + 1) (by omega)) _

/-- IDCG is strictly monotone in the number of relevant positions. -/
theorem idcgFrom_lt_idcgFrom : ∀ (m n i : ℕ), m < n → idcgFrom m i < idcgFrom n i := by
  intro m
  induction m with
  | zero => intro n i h; exact idcgFrom_pos n i h
  | succ m ih =>
    intro n i h
    cases n with
    | zero => omega
    | succ n =>
      show gainVal 1 i + idcgFrom m (i + 1) < gainVal 1 i + idcgFrom n (i + 1)
      exact add_lt_add_left (ih n (i + 1) (by omega)) _

/-- Unfolding equation for dcgFrom on a cons cell. -/
theorem dcgFrom_cons (relSet : List String) (d : String) (ds : List String) (i : ℕ) :
    dcgFrom relSet (d :: ds) i
      = gainVal (if d ∈ relSet then 1 else 0) i + dcgFrom relSet ds (i + 1) := rfl

/-- The number of relevant positions of the retrieved-id list. -/
def countRel (relSet ids : List String) : ℕ :=
  (ids.filter (fun d => decide (d ∈ relSet))).length

/-- Unfolding equation for countRel on a cons cell. -/
theorem countRel_cons (relSet : List String) (d : String) (ds : List String) :
    countRel relSet (d :: ds)
      = if d ∈ relSet then countRel relSet ds + 1 else countRel relSet ds := by
  unfold countRel
  rw [List.filter_cons]
  by_cases hd : d ∈ relSet
  · simp [hd]
  · simp [hd]

/-- The relevant entries of the list form a front segment: after the first
irrelevant entry no relevant entry occurs. -/
def relFront (relSet : List String) : List String → Prop
  | [] => True
  | d :: ds => if d ∈ relSet then relFront relSet ds else ∀ x ∈ ds, x ∉ relSet

/-- Unfolding equation for relFront on a cons cell. -/
theorem relFront_cons (relSet : List String) (d : String) (ds : List String) :
    relFront relSet (d :: ds)
      = if d ∈ relSet then relFront relSet ds else ∀ x ∈ ds, x ∉ relSet := rfl

/-- DCG vanishes on a fully irrelevant list. -/
theorem dcgFrom_eq_zero (relSet : List String) :
    ∀ (ids : List String) (i : ℕ), (∀ x ∈ ids, x ∉ relSet) → dcgFrom relSet ids i = 0 := by
  intro ids
  induction ids with
  | nil => intro i _; rfl
  | cons d ds ih =>
    intro i h
    rw [dcgFrom_cons, if_neg (h d (List.mem_cons_self _ _)), gainVal_zero,
      ih (i + 1) (fun x hx => h x (List.mem_cons_of_mem _ hx)), add_zero]

/-- countRel vanishes on a fully irrelevant list. -/
theorem countRel_eq_zero (relSet : List String) (ids : List String)
    (h : ∀ x ∈ ids, x ∉ relSet) : countRel relSet ids = 0 := by
  unfold countRel
  rw [List.filter_eq_nil_iff.mpr (by intro a ha; simpa using h a ha)]
  rfl

/-- A relevant member forces countRel to be positive. -/
theorem countRel_pos (relSet : List String) (ids : List String) (x : String)
    (hx : x ∈ ids) (hrel : x ∈ relSet) : 0 < countRel relSet ids := by
  unfold countRel
  rw [List.length_pos]
  intro hnil
  have : x ∈ ids.filter (fun d => decide (d ∈ relSet)) :=
    List.mem_filter.mpr ⟨hx, by simpa using hrel⟩
  rw [hnil] at this
  simp at this

/-- DCG is non-negative. -/
theorem dcgFrom_nonneg (relSet : List String) :
    ∀ (ids : List String) (i : ℕ), 0 ≤ dcgFrom relSet ids i := by
  intro ids
  induction ids with
  | nil => intro i; exact le_refl 0
  | cons d ds ih =>
    intro i
    rw [dcgFrom_cons]
    have hg : 0 ≤ gainVal (if d ∈ relSet then 1 else 0) i := by
      split
      · exact le_of_lt (gainVal_one_pos i)
      · rw [gainVal_zero]
    have := ih (i + 1)
    linarith

/-- DCG is at most the IDCG of its own number of relevant positions. -/
theorem dcgFrom_le (relSet : List String) :
    ∀ (ids : List String) (i : ℕ),
      dcgFrom relSet ids i ≤ idcgFrom (countRel relSet ids) i := by
  intro ids
  induction ids with
  | nil => intro i; exact le_refl 0
  | cons d ds ih =>
    intro i
    by_cases hd : d ∈ relSet
    · rw [dcgFrom_cons, if_pos hd, countRel_cons, if_pos hd]
      show gainVal 1 i + dcgFrom relSet ds (i + 1)
        ≤ gainVal 1 i + idcgFrom (countRel relSet ds) (i + 1)
      exact add_le_add_left (ih (i + 1)) _
    · rw [dcgFrom_cons, if_neg hd, countRel_cons, if_neg hd, gainVal_zero, zero_add]
      exact le_trans (ih (i + 1)) (idcgFrom_shift_le _ _)

/-- On a front-segmented list, DCG reaches the IDCG of its relevant
count exactly. -/
theorem dcgFrom_eq_of_relFront (relSet : List String) :
    ∀ (ids : List String) (i : ℕ), relFront relSet ids →
      dcgFrom relSet ids i = idcgFrom (countRel relSet ids) i := by
  intro ids
  induction ids with
  | nil => intro i _; rfl
  | cons d ds ih =>
    intro i hf
    by_cases hd : d ∈ relSet
    · rw [relFront_cons, if_pos hd] at hf
      rw [dcgFrom_cons, if_pos hd, countRel_cons, if_pos hd]
      show gainVal 1 i + dcgFrom relSet ds (i + 1)
        = gainVal 1 i + idcgFrom (countRel relSet ds) (i + 1)
      rw [ih (i + 1) hf]
    · rw [relFront_cons, if_neg hd] at hf
      rw [dcgFrom_cons, if_neg hd, countRel_cons, if_neg hd, gainVal_zero, zero_add,
        dcgFrom_eq_zero relSet ds (i + 1) hf, countRel_eq_zero relSet ds hf]
      rfl

/-- On a list that is not front-segmented, DCG stays strictly below the
IDCG of its relevant count. -/
theorem dcgFrom_lt_of_not_relFront (relSet : List String) :
    ∀ (ids : List String) (i : ℕ), ¬ relFront relSet ids →
      dcgFrom relSet ids i < idcgFrom (countRel relSet ids) i := by
  intro ids
  induction ids with
  | nil => intro i h; exact absurd trivial h
  | cons d ds ih =>
    intro i hnf
    by_cases hd : d ∈ relSet
    · rw [relFront_cons, if_pos hd] at hnf
      rw [dcgFrom_cons, if_pos hd, countRel_cons, if_pos hd]
      show gainVal 1 i + dcgFrom relSet ds (i + 1)
        < gainVal 1 i + idcgFrom (countRel relSet ds) (i + 1)
      exact add_lt_add_left (ih (i + 1) hnf) _
    · rw [relFront_cons, if_neg hd] at hnf
      push_neg at hnf
      obtain ⟨x, hx, hxrel⟩ := hnf
      have hcpos : 0 < countRel relSet ds := countRel_pos relSet ds x hx hxrel
      rw [dcgFrom_cons, if_neg hd, countRel_cons, if_neg hd, gainVal_zero, zero_add]
      exact lt_of_le_of_lt (dcgFrom_le relSet ds (i + 1)) (idcgFrom_shift_lt _ _ hcpos)

/-- With duplicate-free inputs, the relevant count is bounded by the
number of relevant ids. -/
theorem countRel_le_of_nodup (relSet ids : List String)
    (hids : ids.Nodup) (hrel : relSet.Nodup) : countRel relSet ids ≤ relSet.length := by
  have hnd : (ids.filter (fun d => decide (d ∈ relSet))).Nodup := hids.filter _
  have hsub : (ids.filter (fun d => decide (d ∈ relSet))).toFinset ⊆ relSet.toFinset := by
    intro x hx
    rw [List.mem_toFinset] at hx
    rw [List.mem_toFinset]
    have := (List.mem_filter.mp hx).2
    simpa using this
  calc countRel relSet ids
      = (ids.filter (fun d => decide (d ∈ relSet))).toFinset.card :=
        (List.toFinset_card_of_nodup hnd).symm
    _ ≤ relSet.toFinset.card := Finset.card_le_card hsub
    _ = relSet.length := List.toFinset_card_of_nodup hrel

/-- DCG reaches IDCG exactly on covered, front-segmented rankings. -/
theorem dcg_eq_idcg_iff (relSet ids : List String)
    (hrel : relSet.Nodup) (hids : ids.Nodup) :
    dcgFrom relSet ids 0 = idcgFrom relSet.length 0 ↔
      relFront relSet ids ∧ countRel relSet ids = relSet.length := by
  constructor
  · intro heq
    have h1 : dcgFrom relSet ids 0 ≤ idcgFrom (countRel relSet ids) 0 :=
      dcgFrom_le relSet ids 0
    have hcle : countRel relSet ids ≤ relSet.length :=
      countRel_le_of_nodup relSet ids hids hrel
    have hc : countRel relSet ids = relSet.length := by
      by_contra hne
      have hlt := idcgFrom_lt_idcgFrom (countRel relSet ids) relSet.length 0
        (lt_of_le_of_ne hcle hne)
      linarith
    have hf : relFront relSet ids := by
      by_contra hnf
      have := dcgFrom_lt_of_not_relFront relSet ids 0 hnf
      rw [hc] at this
      linarith
    exact ⟨hf, hc⟩
  · intro ⟨hf, hc⟩
    rw [dcgFrom_eq_of_relFront relSet ids 0 hf, hc]

/-- relFront expressed as an explicit split into a relevant front and an
irrelevant tail. -/
theorem relFront_iff_append (relSet : List String) :
    ∀ ids, relFront relSet ids ↔
      ∃ pre post, ids = pre ++ post ∧ (∀ x ∈ pre, x ∈ relSet) ∧
        (∀ x ∈ post, x ∉ relSet) := by
  intro ids
  induction ids with
  | nil =>
    constructor
    · intro _
      exact ⟨[], [], rfl, by simp, by simp⟩
    · intro _
      trivial
  | cons d ds ih =>
    by_cases hd : d ∈ relSet
    · rw [relFront_cons, if_pos hd]
      constructor
      · intro h
        obtain ⟨pre, post, he, hpre, hpost⟩ := ih.mp h
        refine ⟨d :: pre, post, by rw [he, List.cons_append], ?_, hpost⟩
        intro x hx
        rcases List.mem_cons.mp hx with h1 | h2
        · exact h1 ▸ hd
        · exact hpre x h2
      · intro ⟨pre, post, he, hpre, hpost⟩
        apply ih.mpr
        cases pre with
        | nil =>
          exfalso
          rw [List.nil_append] at he
          exact hpost d (he ▸ List.mem_cons_self _ _) hd
        | cons p ps =>
          rw [List.cons_append] at he
          have h1 : d = p := (List.cons.injEq .. ▸ he).1
          have h2 : ds = ps ++ post := (List.cons.injEq .. ▸ he).2
          exact ⟨ps, post, h2, fun x hx => hpre x (List.mem_cons_of_mem _ hx), hpost⟩
    · rw [relFront_cons, if_neg hd]
      constructor
      · intro h
        refine ⟨[], d :: ds, rfl, by simp, ?_⟩
        intro x hx
        rcases List.mem_cons.mp hx with h1 | h2
        · exact h1 ▸ hd
        · exact h x h2
      · intro ⟨pre, post, he, hpre, hpost⟩
        cases pre with
        | nil =>
          rw [List.nil_append] at he
          intro x hx
          exact hpost x (he ▸ List.mem_cons_of_mem _ hx)
        | cons p ps =>
          exfalso
          rw [List.cons_append] at he
          have h1 : d = p := (List.cons.injEq .. ▸ he).1
          exact hd (h1 ▸ hpre p (List.mem_cons_self _ _))

/-- With duplicate-free inputs, the relevant count reaches the number of
relevant ids exactly when every relevant id is retrieved. -/
theorem countRel_eq_length_iff (relSet ids : List String)
    (hrel : relSet.Nodup) (hids : ids.Nodup) :
    countRel relSet ids = relSet.length ↔ ∀ r ∈ relSet, r ∈ ids := by
  have hnd : (ids.filter (fun d => decide (d ∈ relSet))).Nodup := hids.filter _
  have hsub : (ids.filter (fun d => decide (d ∈ relSet))).toFinset ⊆ relSet.toFinset := by
    intro x hx
    rw [List.mem_toFinset] at hx
    rw [List.mem_toFinset]
    have := (List.mem_filter.mp hx).2
    simpa using this
  constructor
  · intro hc r hr
    have hcards : relSet.toFinset.card
        ≤ (ids.filter (fun d => decide (d ∈ relSet))).toFinset.card := by
      rw [List.toFinset_card_of_nodup hnd, List.toFinset_card_of_nodup hrel]
      unfold countRel at hc
      omega
    have heq := Finset.eq_of_subset_of_card_le hsub hcards
    have : r ∈ (ids.filter (fun d => decide (d ∈ relSet))).toFinset := by
      rw [heq]
      exact List.mem_toFinset.mpr hr
    exact List.mem_of_mem_filter (List.mem_toFinset.mp this)
  · intro hcov
    refine le_antisymm (countRel_le_of_nodup relSet ids hids hrel) ?_
    have hsub2 : relSet.toFinset ⊆ (ids.filter (fun d => decide (d ∈ relSet))).toFinset := by
      intro r hr
      rw [List.mem_toFinset] at hr
      rw [List.mem_toFinset]
      exact List.mem_filter.mpr ⟨hcov r hr, by simpa using hr⟩
    have := Finset.card_le_card hsub2
    rw [List.toFinset_card_of_nodup hnd, List.toFinset_card_of_nodup hrel] at this
    unfold countRel
    omega

/-! ### Claim C2: NDCG is 1 exactly on perfect rankings -/

/-- Claim C2 (amended with duplicate-freeness of the thresholded id list):
NDCG equals 1 exactly when every relevant id is retrieved and the
retrieved order places all relevant ids before all irrelevant ones. -/
theorem ndcg_perfect_ranking_iff (retrieved_docs : List RankedResult)
    (relevant_docs : List String) (k : Option ℕ)
    (h1 : retrieved_docs ≠ []) (h2 : relevant_docs ≠ [])
    (hnd : (retrievedIds retrieved_docs k).Nodup) :
    (calculate_retrieval_metrics retrieved_docs relevant_docs k).ndcg = 1 ↔
      ((∀ r ∈ relevant_docs, r ∈ retrievedIds retrieved_docs k) ∧
       ∃ pre post, retrievedIds retrieved_docs k = pre ++ post ∧
         (∀ x ∈ pre, x ∈ relevant_docs) ∧ (∀ x ∈ post, x ∉ relevant_docs)) := by
  rw [calculate_retrieval_metrics_eq retrieved_docs relevant_docs k h1 h2]
  show ndcgVal (retrievedIds retrieved_docs k) relevant_docs.dedup = 1 ↔ _
  have hrelnodup : relevant_docs.dedup.Nodup := List.nodup_dedup relevant_docs
  have hrelne : relevant_docs.dedup ≠ [] := by
    rw [ne_eq, List.dedup_eq_nil]
    exact h2
  have hidcgpos : 0 < idcgFrom relevant_docs.dedup.length 0 :=
    idcgFrom_pos _ _ (List.length_pos.mpr hrelne)
  unfold ndcgVal
  rw [if_pos hidcgpos, div_eq_one_iff_eq (ne_of_gt hidcgpos),
    dcg_eq_idcg_iff relevant_docs.dedup (retrievedIds retrieved_docs k) hrelnodup hnd,
    relFront_iff_append,
    countRel_eq_length_iff relevant_docs.dedup (retrievedIds retrieved_docs k) hrelnodup hnd]
  constructor
  · intro ⟨hsplit, hcov⟩
    refine ⟨fun r hr => hcov r (List.mem_dedup.mpr hr), ?_⟩
    obtain ⟨pre, post, he, hpre, hpost⟩ := hsplit
    exact ⟨pre, post, he, fun x hx => List.mem_dedup.mp (hpre x hx),
      fun x hx hc => hpost x hx (List.mem_dedup.mpr hc)⟩
  · intro ⟨hcov, hsplit⟩
    refine ⟨?_, fun r hr => hcov r (List.mem_dedup.mp hr)⟩
    obtain ⟨pre, post, he, hpre, hpost⟩ := hsplit
    exact ⟨pre, post, he, fun x hx => List.mem_dedup.mpr (hpre x hx),
      fun x hx hc => hpost x hx (List.mem_dedup.mp hc)⟩

/-- Concrete use of the C2 amended theorem: relevant id a ranked before
irrelevant id x gives NDCG exactly 1. -/
theorem ndcg_perfect_ranking_iff_witness :
    ([(⟨"a", 0.9, false⟩ : RankedResult), ⟨"x", 0.9, false⟩] ≠ []) ∧
    ((["a"] : List String) ≠ []) ∧
    (retrievedIds [⟨"a", 0.9, false⟩, ⟨"x", 0.9, false⟩] none).Nodup ∧
    (calculate_retrieval_metrics [⟨"a", 0.9, false⟩, ⟨"x", 0.9, false⟩] ["a"] none).ndcg
      = 1 := by
  have hids : retrievedIds [⟨"a", 0.9, false⟩, ⟨"x", 0.9, false⟩] none = ["a", "x"] := by
    norm_num [retrievedIds, pySlice]
  have hnd : (retrievedIds [⟨"a", 0.9, false⟩, ⟨"x", 0.9, false⟩] none).Nodup := by
    rw [hids]
    decide
  refine ⟨by simp, by simp, hnd, ?_⟩
  apply (ndcg_perfect_ranking_iff [⟨"a", 0.9, false⟩, ⟨"x", 0.9, false⟩] ["a"] none
    (by simp) (by simp) hnd).mpr
  constructor
  · intro r hr
    rw [List.mem_singleton] at hr
    subst hr
    rw [hids]
    exact List.mem_cons_self _ _
  · refine ⟨["a"], ["x"], by rw [hids]; rfl, ?_, ?_⟩
    · intro x hx
      rw [List.mem_singleton] at hx
      subst hx
      exact List.mem_cons_self _ _
    · intro x hx
      rw [List.mem_singleton] at hx
      subst hx
      decide

/-- The NDCG value on the duplicated-id input: strictly more than 1. -/
theorem ndcg_duplicate_value :
    (calculate_retrieval_metrics [⟨"a", 0.9, false⟩, ⟨"a", 0.9, false⟩] ["a"] none).ndcg
      = 1 + gainVal 1 1 := by
  have hids : retrievedIds [⟨"a", 0.9, false⟩, ⟨"a", 0.9, false⟩] none = ["a", "a"] := by
    norm_num [retrievedIds, pySlice]
  have hg0 : gainVal 1 0 = 1 := by
    rw [gainVal_one, show ((0 : ℕ) : ℝ) + 2 = 2 by norm_num,
      Real.logb_self_eq_one (by norm_num : (1 : ℝ) < 2)]
    norm_num
  rw [calculate_retrieval_metrics_eq _ _ _ (by simp) (by simp)]
  show ndcgVal (retrievedIds [⟨"a", 0.9, false⟩, ⟨"a", 0.9, false⟩] none)
      (["a"] : List String).dedup = 1 + gainVal 1 1
  rw [hids, show (["a"] : List String).dedup = ["a"] from by decide]
  have hidcg : idcgFrom (["a"] : List String).length 0 = 1 := by
    show gainVal 1 0 + idcgFrom 0 (0 + 1) = 1
    rw [hg0]
    show (1 : ℝ) + 0 = 1
    norm_num
  have hdcg : dcgFrom ["a"] ["a", "a"] 0 = 1 + gainVal 1 1 := by
    rw [dcgFrom_cons, dcgFrom_cons, if_pos (List.mem_singleton.mpr rfl)]
    rw [hg0]
    show (1 : ℝ) + (gainVal 1 (0 + 1) + 0) = 1 + gainVal 1 1
    norm_num
  unfold ndcgVal
  rw [hidcg, hdcg, if_pos one_pos, div_one]

/-- Claim C2 counterexample: when a relevant doc id is retrieved twice,
the claimed condition holds (every relevant id appears, all relevant
entries precede all irrelevant ones), yet NDCG is not 1 (it exceeds 1). -/
theorem ndcg_perfect_ranking_counterexample :
    ((∀ r ∈ (["a"] : List String),
        r ∈ retrievedIds [⟨"a", 0.9, false⟩, ⟨"a", 0.9, false⟩] none) ∧
      ∃ pre post, retrievedIds [⟨"a", 0.9, false⟩, ⟨"a", 0.9, false⟩] none = pre ++ post ∧
        (∀ x ∈ pre, x ∈ (["a"] : List String)) ∧
        (∀ x ∈ post, x ∉ (["a"] : List String))) ∧
    (calculate_retrieval_metrics [⟨"a", 0.9, false⟩, ⟨"a", 0.9, false⟩] ["a"] none).ndcg
      ≠ 1 := by
  have hids : retrievedIds [⟨"a", 0.9, false⟩, ⟨"a", 0.9, false⟩] none = ["a", "a"] := by
    norm_num [retrievedIds, pySlice]
  refine ⟨⟨?_, ?_⟩, ?_⟩
  · intro r hr
    rw [List.mem_singleton] at hr
    subst hr
    rw [hids]
    exact List.mem_cons_self _ _
  · refine ⟨["a", "a"], [], by rw [hids]; rfl, ?_, by simp⟩
    intro x hx
    rcases List.mem_cons.mp hx with h1 | h2
    · exact h1 ▸ List.mem_cons_self _ _
    · rw [List.mem_singleton] at h2
      exact h2 ▸ List.mem_cons_self _ _
  · rw [ndcg_duplicate_value]
    have := gainVal_one_pos 1
    intro h
    have : gainVal 1 1 = 0 := by linarith
    linarith

/-! ### Claim C1: metric bounds -/

/-- True positives never exceed the number of retrieved ids. -/
theorem truePositives_le_length (ids relSet : List String) :
    truePositives ids relSet ≤ ids.length :=
  le_trans (List.length_filter_le _ _) (List.dedup_sublist ids).length_le

/-- True positives never exceed the number of relevant ids. -/
theorem truePositives_le_relSet (ids relSet : List String) (hrel : relSet.Nodup) :
    truePositives ids relSet ≤ relSet.length := by
  have hnd : ((ids.dedup).filter (fun d => decide (d ∈ relSet))).Nodup :=
    (List.nodup_dedup ids).filter _
  have hsub : ((ids.dedup).filter (fun d => decide (d ∈ relSet))).toFinset
      ⊆ relSet.toFinset := by
    intro x hx
    rw [List.mem_toFinset] at hx
    rw [List.mem_toFinset]
    have := (List.mem_filter.mp hx).2
    simpa using this
  calc truePositives ids relSet
      = ((ids.dedup).filter (fun d => decide (d ∈ relSet))).toFinset.card :=
        (List.toFinset_card_of_nodup hnd).symm
    _ ≤ relSet.toFinset.card := Finset.card_le_card hsub
    _ = relSet.length := List.toFinset_card_of_nodup hrel

/-- precision lies in the unit interval. -/
theorem precisionVal_bounds (ids relSet : List String) :
    0 ≤ precisionVal ids relSet ∧ precisionVal ids relSet ≤ 1 := by
  unfold precisionVal
  split
  · rename_i hne
    refine ⟨div_nonneg (Nat.cast_nonneg _) (Nat.cast_nonneg _), ?_⟩
    rw [div_le_one (by exact_mod_cast List.length_pos.mpr hne)]
    exact_mod_cast truePositives_le_length ids relSet
  · exact ⟨le_refl 0, by norm_num⟩

/-- recall lies in the unit interval (for a duplicate-free relevant
set, which set(relevant_docs) always is). -/
theorem recallVal_bounds (ids relSet : List String) (hrel : relSet.Nodup) :
    0 ≤ recallVal ids relSet ∧ recallVal ids relSet ≤ 1 := by
  unfold recallVal
  split
  · rename_i hne
    refine ⟨div_nonneg (Nat.cast_nonneg _) (Nat.cast_nonneg _), ?_⟩
    rw [div_le_one (by exact_mod_cast List.length_pos.mpr hne)]
    exact_mod_cast truePositives_le_relSet ids relSet hrel
  · exact ⟨le_refl 0, by norm_num⟩

/-- The harmonic mean of two unit-interval values lies in the unit
interval. -/
theorem f1Val_bounds (p r : ℚ) (hp0 : 0 ≤ p) (hp1 : p ≤ 1) (hr0 : 0 ≤ r) (hr1 : r ≤ 1) :
    0 ≤ f1Val p r ∧ f1Val p r ≤ 1 := by
  unfold f1Val
  split
  · rename_i hpr
    constructor
    · apply div_nonneg
      · nlinarith
      · linarith
    · rw [div_le_one hpr]
      nlinarith
  · exact ⟨le_refl 0, by norm_num⟩

/-- mrr lies in the unit interval. -/
theorem mrrVal_bounds (ids relSet : List String) :
    0 ≤ mrrVal ids relSet ∧ mrrVal ids relSet ≤ 1 := by
  unfold mrrVal
  split
  · split
    · exact ⟨le_refl 0, by norm_num⟩
    · rename_i hne
      have hb := ranksFrom_mem_bounds relSet ids 0 _ (pyMax_mem _ hne)
      refine ⟨le_of_lt hb.1, ?_⟩
      have h2 := hb.2
      have : 1 / (((0 : ℕ) : ℚ) + 1) = 1 := by norm_num
      linarith [this ▸ h2]
  · exact ⟨le_refl 0, by norm_num⟩

/-- ndcg is non-negative. -/
theorem ndcgVal_nonneg (ids relSet : List String) : 0 ≤ ndcgVal ids relSet := by
  unfold ndcgVal
  split
  · rename_i hpos
    exact div_nonneg (dcgFrom_nonneg relSet ids 0) (le_of_lt hpos)
  · exact le_refl 0

/-- ndcg is at most 1 when the retrieved ids are duplicate-free. -/
theorem ndcgVal_le_one (ids relSet : List String)
    (hids : ids.Nodup) (hrel : relSet.Nodup) : ndcgVal ids relSet ≤ 1 := by
  unfold ndcgVal
  split
  · rename_i hpos
    rw [div_le_one hpos]
    exact le_trans (dcgFrom_le relSet ids 0)
      (idcgFrom_le_idcgFrom _ _ 0 (countRel_le_of_nodup relSet ids hids hrel))
  · norm_num

/-- Claim C1 (amended): precision, recall, f1 and mrr always lie in
the unit interval; ndcg is non-negative and lies in the unit interval
whenever the thresholded retrieved-id list is duplicate-free (with a
duplicated doc id it can exceed 1); on an empty input collection all five
metrics are 0. -/
theorem calculate_retrieval_metrics_bounds (retrieved_docs : List RankedResult)
    (relevant_docs : List String) (k : Option ℕ) :
    (0 ≤ (calculate_retrieval_metrics retrieved_docs relevant_docs k).precision ∧
      (calculate_retrieval_metrics retrieved_docs relevant_docs k).precision ≤ 1) ∧
    (0 ≤ (calculate_retrieval_metrics retrieved_docs relevant_docs k).«recall» ∧
      (calculate_retrieval_metrics retrieved_docs relevant_docs k).«recall» ≤ 1) ∧
    (0 ≤ (calculate_retrieval_metrics retrieved_docs relevant_docs k).f1 ∧
      (calculate_retrieval_metrics retrieved_docs relevant_docs k).f1 ≤ 1) ∧
    (0 ≤ (calculate_retrieval_metrics retrieved_docs relevant_docs k).mrr ∧
      (calculate_retrieval_metrics retrieved_docs relevant_docs k).mrr ≤ 1) ∧
    (0 ≤ (calculate_retrieval_metrics retrieved_docs relevant_docs k).ndcg) ∧
    ((retrievedIds retrieved_docs k).Nodup →
      (calculate_retrieval_metrics retrieved_docs relevant_docs k).ndcg ≤ 1) ∧
    ((retrieved_docs = [] ∨ relevant_docs = []) →
      calculate_retrieval_metrics retrieved_docs relevant_docs k = ⟨0, 0, 0, 0, 0⟩) := by
  by_cases hempty : retrieved_docs = [] ∨ relevant_docs = []
  · have hm : calculate_retrieval_metrics retrieved_docs relevant_docs k
        = ⟨0, 0, 0, 0, 0⟩ := by
      unfold calculate_retrieval_metrics
      rw [if_pos hempty]
    rw [hm]
    exact ⟨⟨le_refl 0, by norm_num⟩, ⟨le_refl 0, by norm_num⟩, ⟨le_refl 0, by norm_num⟩,
      ⟨le_refl 0, by norm_num⟩, le_refl 0, fun _ => by norm_num, fun _ => rfl⟩
  · push_neg at hempty
    obtain ⟨h1, h2⟩ := hempty
    rw [calculate_retrieval_metrics_eq retrieved_docs relevant_docs k h1 h2]
    have hrel : relevant_docs.dedup.Nodup := List.nodup_dedup relevant_docs
    have hp := precisionVal_bounds (retrievedIds retrieved_docs k) relevant_docs.dedup
    have hr := recallVal_bounds (retrievedIds retrieved_docs k) relevant_docs.dedup hrel
    exact ⟨hp, hr, f1Val_bounds _ _ hp.1 hp.2 hr.1 hr.2, mrrVal_bounds _ _,
      ndcgVal_nonneg _ _, fun hnd => ndcgVal_le_one _ _ hnd hrel,
      fun hcontra => absurd hcontra (by push_neg; exact ⟨h1, h2⟩)⟩

/-- Concrete use of the C1 amended theorem: on a duplicate-free
thresholded id list, ndcg is at most 1. -/
theorem calculate_retrieval_metrics_bounds_witness :
    (retrievedIds [⟨"a", 0.9, false⟩, ⟨"x", 0.9, false⟩] none).Nodup ∧
    (calculate_retrieval_metrics [⟨"a", 0.9, false⟩, ⟨"x", 0.9, false⟩] ["a"] none).ndcg
      ≤ 1 := by
  have hids : retrievedIds [⟨"a", 0.9, false⟩, ⟨"x", 0.9, false⟩] none = ["a", "x"] := by
    norm_num [retrievedIds, pySlice]
  have hnd : (retrievedIds [⟨"a", 0.9, false⟩, ⟨"x", 0.9, false⟩] none).Nodup := by
    rw [hids]
    decide
  exact ⟨hnd,
    (calculate_retrieval_metrics_bounds [⟨"a", 0.9, false⟩, ⟨"x", 0.9, false⟩]
        ["a"] none).2.2.2.2.2.1 hnd⟩

/-- Claim C1 counterexample: with a doc id retrieved twice, NDCG exceeds
1, so the five metrics do not all lie in the unit interval. -/
theorem ndcg_gt_one_counterexample :
    1 < (calculate_retrieval_metrics [⟨"a", 0.9, false⟩, ⟨"a", 0.9, false⟩] ["a"] none).ndcg := by
  rw [ndcg_duplicate_value]
  have := gainVal_one_pos 1
  linarith

end FinQA
